import Mathlib

/-!
# Verification of the School-Navigation core against its specification

Shallow embedding of the repository's core modules:

* `backend/core/path_finder.py` — `Node`, `BuildingGraph`, `PathFinder`
  (A* search with congestion-scaled edge costs);
* `backend/core/congestion_processor.py` — `AccelerometerData`,
  `CongestionProcessor` (motion-sample ingestion and congestion estimation);
* `backend/core/model_matcher.py` — `Point3D`, `ModelPathMatcher`
  (projection of node paths to 3D polylines).

Modelling conventions:

* Python `float` values are modelled as real numbers (`ℝ`); `x ** 0.5` on a
  non-negative float is modelled as `Real.sqrt`.
* Python `dict`s are modelled as association lists (`List (key × value)`)
  with in-place-update insertion (`ainsert`), which preserves both the
  lookup semantics and the insertion-order iteration semantics of `dict`.
* Python `set`s are modelled as `Finset`.
* Calls to `time.time()` are modelled by an explicit `now : ℝ` parameter;
  a compound operation passes the same `now` to each internal clock read.
* A Python function that can raise (KeyError on a missing dict field,
  an unbounded loop) returns an `Option` / explicit result marker instead.
-/

/-- Lookup in an association list with string-like keys: the value of the
first entry whose key equals `k` (Python `d[k]` / `d.get(k)`). -/
def alookup {α : Type} : List (String × α) → String → Option α
  | [], _ => none
  | (k1, v) :: rest, k => if k = k1 then some v else alookup rest k

/-- In-place dictionary update (Python `d[k] = v`): replaces the value at the
first occurrence of `k`, or appends a fresh entry at the end.  This matches
the observable behaviour of a Python `dict` assignment, including the
iteration order (an updated key keeps its original position). -/
def ainsert {α : Type} : List (String × α) → String → α → List (String × α)
  | [], k, v => [(k, v)]
  | (k1, v1) :: rest, k, v =>
    if k = k1 then (k, v) :: rest else (k1, v1) :: ainsert rest k v

@[simp] theorem alookup_nil {α : Type} (k : String) :
    alookup ([] : List (String × α)) k = none := rfl

@[simp] theorem alookup_cons {α : Type} (k1 : String) (v : α) (rest : List (String × α))
    (k : String) :
    alookup ((k1, v) :: rest) k = if k = k1 then some v else alookup rest k := rfl

@[simp] theorem ainsert_nil {α : Type} (k : String) (v : α) :
    ainsert ([] : List (String × α)) k v = [(k, v)] := rfl

theorem alookup_ainsert_self {α : Type} (l : List (String × α)) (k : String) (v : α) :
    alookup (ainsert l k v) k = some v := by
  induction l with
  | nil => simp [ainsert]
  | cons hd tl ih =>
    obtain ⟨k1, v1⟩ := hd
    by_cases h : k = k1 <;> simp [ainsert, h, ih]

theorem alookup_ainsert_ne {α : Type} (l : List (String × α)) (k k2 : String) (v : α)
    (h : k2 ≠ k) : alookup (ainsert l k v) k2 = alookup l k2 := by
  induction l with
  | nil => simp [ainsert, h]
  | cons hd tl ih =>
    obtain ⟨k1, v1⟩ := hd
    by_cases h1 : k = k1
    · subst h1
      simp [ainsert, h]
    · by_cases h2 : k2 = k1 <;> simp [ainsert, h1, h2, ih]

/-- The keys present after an `ainsert` are the old keys plus the new key. -/
theorem alookup_ainsert_isSome {α : Type} (l : List (String × α)) (k k2 : String) (v : α) :
    (alookup (ainsert l k v) k2).isSome ↔ (alookup l k2).isSome ∨ k2 = k := by
  by_cases h : k2 = k
  · subst h; simp [alookup_ainsert_self]
  · simp [alookup_ainsert_ne l k k2 v h, h]

theorem ainsert_length_le {α : Type} (l : List (String × α)) (k : String) (v : α) :
    (ainsert l k v).length ≤ l.length + 1 := by
  induction l with
  | nil => simp
  | cons hd tl ih =>
    obtain ⟨k1, v1⟩ := hd
    by_cases h : k = k1
    · simp [ainsert, h]
    · simp only [ainsert, if_neg h, List.length_cons]
      omega

/-! ## Graph model (`path_finder.py`, `Node` and `BuildingGraph`) -/

/-- Model of `Node` from `path_finder.py`: id, planar coordinates, floor index and the
neighbor dictionary `neighbor_id -> distance`. -/
structure Node where
  id : String
  x : ℝ
  y : ℝ
  floor : ℤ
  neighbors : List (String × ℝ)

/-- Model of `Node.add_neighbor`: `self.neighbors[neighbor_id] = distance`. -/
def Node.add_neighbor (n : Node) (neighbor_id : String) (distance : ℝ) : Node :=
  { n with neighbors := ainsert n.neighbors neighbor_id distance }

/-- Model of `BuildingGraph` from `path_finder.py`: the node dictionary and the
named-location index. -/
structure BuildingGraph where
  nodes : List (String × Node)
  special_locations : List (String × String)

/-- The empty graph produced by `BuildingGraph.__init__`. -/
def BuildingGraph.empty : BuildingGraph := ⟨[], []⟩

/-- Model of `BuildingGraph.add_node`: builds a fresh node (empty neighbor dict) and
stores it under `node_id`, returning the graph and the node.  The source has
no occupancy check: an existing entry is overwritten. -/
def BuildingGraph.add_node (g : BuildingGraph) (node_id : String) (x y : ℝ)
    (floor : ℤ) : BuildingGraph × Node :=
  let node : Node := ⟨node_id, x, y, floor, []⟩
  ({ g with nodes := ainsert g.nodes node_id node }, node)

/-- Helper for `add_edge`: apply `f` to the node stored at `k` (mutation of a
node object held in the `nodes` dict). -/
def BuildingGraph.modifyNode (g : BuildingGraph) (k : String) (f : Node → Node) :
    BuildingGraph :=
  match alookup g.nodes k with
  | none => g
  | some n => { g with nodes := ainsert g.nodes k (f n) }

/-- Model of `BuildingGraph.add_edge`: if both endpoints exist, add the bidirectional
neighbor entries with the same weight; otherwise do nothing.  The distance
value is not validated. -/
def BuildingGraph.add_edge (g : BuildingGraph) (node1_id node2_id : String)
    (distance : ℝ) : BuildingGraph :=
  if (alookup g.nodes node1_id).isSome ∧ (alookup g.nodes node2_id).isSome then
    (g.modifyNode node1_id (·.add_neighbor node2_id distance)).modifyNode node2_id
      (·.add_neighbor node1_id distance)
  else g

/-- Model of `BuildingGraph.add_special_location`: `self.special_locations[name] = node_id`. -/
def BuildingGraph.add_special_location (g : BuildingGraph) (name node_id : String) :
    BuildingGraph :=
  { g with special_locations := ainsert g.special_locations name node_id }

/-! ## Path projector (`model_matcher.py`) -/

/-- Model of `Point3D` from `model_matcher.py`.  Its `to_dict` serialization carries
exactly the three coordinates, so the emitted coordinate dictionaries are
modelled by `Point3D` itself. -/
structure Point3D where
  x : ℝ
  y : ℝ
  z : ℝ

/-- Model of `ModelPathMatcher`: scale constants plus the registered node positions. -/
structure ModelPathMatcher where
  model_scale : ℝ
  floor_height : ℝ
  node_positions : List (String × Point3D)

/-- Model of `ModelPathMatcher.register_node`: project `(x, y, floor)` to model space
(`model_x = x * scale`, `model_y = floor * floor_height`,
`model_z = y * scale`) and store it. -/
def ModelPathMatcher.register_node (m : ModelPathMatcher) (node_id : String)
    (x y : ℝ) (floor : ℤ) : ModelPathMatcher :=
  let p : Point3D :=
    Point3D.mk (x * m.model_scale) ((floor : ℝ) * m.floor_height) (y * m.model_scale)
  { m with node_positions := ainsert m.node_positions node_id p }

/-- Model of `ModelPathMatcher.path_to_3d_coordinates`: per-node lookup, silently
skipping ids with no registered position. -/
def ModelPathMatcher.path_to_3d_coordinates (m : ModelPathMatcher)
    (path : List String) : List Point3D :=
  path.filterMap (alookup m.node_positions)

/-- One segment of `generate_smooth_path`: for the consecutive pair
`(start, end)`, the start position followed by the `points_per_segment - 1`
interpolated points; a pair with an unresolved endpoint contributes nothing. -/
noncomputable def smoothSegment (m : ModelPathMatcher) (points_per_segment : ℕ)
    (pr : String × String) : List Point3D :=
  match alookup m.node_positions pr.1, alookup m.node_positions pr.2 with
  | some start_pos, some end_pos =>
    start_pos ::
      (List.range' 1 (points_per_segment - 1)).map (fun j =>
        let t : ℝ := (j : ℝ) / (points_per_segment : ℝ)
        ⟨start_pos.x + t * (end_pos.x - start_pos.x),
         start_pos.y + t * (end_pos.y - start_pos.y),
         start_pos.z + t * (end_pos.z - start_pos.z)⟩)
  | _, _ => []

/-- Model of `ModelPathMatcher.generate_smooth_path`: degenerate paths are projected
directly; otherwise each consecutive pair emits its segment points and the
final node's position is appended when it resolves. -/
noncomputable def ModelPathMatcher.generate_smooth_path (m : ModelPathMatcher)
    (path : List String) (points_per_segment : ℕ) : List Point3D :=
  if path.length < 2 then m.path_to_3d_coordinates path
  else
    ((path.zip path.tail).map (smoothSegment m points_per_segment)).flatten ++
      (path.getLast?.bind (alookup m.node_positions)).toList

/-! ## Congestion estimator (`congestion_processor.py`) -/

/-- Model of `AccelerometerData`: one motion sample. -/
structure AccelerometerData where
  x : ℝ
  y : ℝ
  z : ℝ
  timestamp : ℝ
  user_id : String
  location_id : String

/-- Model of `AccelerometerData.magnitude`: `(x**2 + y**2 + z**2)**0.5`. -/
noncomputable def AccelerometerData.magnitude (d : AccelerometerData) : ℝ :=
  Real.sqrt (d.x ^ 2 + d.y ^ 2 + d.z ^ 2)

/-- Model of `CongestionProcessor` state: the per-location sample cache, the memoized
`(rate, computed_at)` cache, and the three configuration constants set in
`__init__` (`expiry_time`, `step_threshold = 1.2`, `step_cooldown = 0.5`). -/
structure CongestionProcessor where
  data_cache : List (String × List AccelerometerData)
  congestion_cache : List (String × (ℝ × ℝ))
  expiry_time : ℝ
  step_threshold : ℝ
  step_cooldown : ℝ

/-- Model of `CongestionProcessor.__init__(expiry_time)`. -/
def CongestionProcessor.init (expiry_time : ℝ) : CongestionProcessor :=
  ⟨[], [], expiry_time, 1.2, 0.5⟩

/-- Model of `CongestionProcessor._clean_expired_data`: drop the location's samples
whose age reaches the expiry horizon (`current_time - t < expiry` kept). -/
noncomputable def cleanExpiredData (now : ℝ) (s : CongestionProcessor)
    (location_id : String) : CongestionProcessor :=
  match alookup s.data_cache location_id with
  | none => s
  | some l =>
    let kept := l.filter (fun d => now - d.timestamp < s.expiry_time)
    { s with data_cache := ainsert s.data_cache location_id kept }

/-- Model of `CongestionProcessor.add_data_point`: append the sample to its location's
list (creating the entry if needed), then clean expired data there. -/
noncomputable def addDataPoint (now : ℝ) (s : CongestionProcessor)
    (d : AccelerometerData) : CongestionProcessor :=
  let cur := (alookup s.data_cache d.location_id).getD []
  let s1 : CongestionProcessor :=
    { s with data_cache := ainsert s.data_cache d.location_id (cur ++ [d]) }
  cleanExpiredData now s1 d.location_id

/-- Step counter of `calculate_congestion`: fold over a user's time-sorted
samples carrying `(steps, last_step_time)`, starting from `(0, 0)`; a sample
counts when its magnitude exceeds the threshold and it arrives more than one
cooldown after the previously counted step. -/
noncomputable def stepFold (thr cd : ℝ) (acc : ℕ × ℝ) (d : AccelerometerData) :
    ℕ × ℝ :=
  if d.magnitude > thr ∧ d.timestamp - acc.2 > cd then (acc.1 + 1, d.timestamp)
  else acc

/-- Steps/minute entry for one user (`calculate_congestion`, speed part):
filter the location's samples to the user, sort by timestamp (stable, like
Python `list.sort`), count steps, and divide by the elapsed span in minutes;
a user whose span is not positive gets no entry. -/
noncomputable def userSpeedEntry (thr cd : ℝ) (locData : List AccelerometerData)
    (uid : String) : Option ℝ :=
  let ud := (locData.filter (fun d => d.user_id = uid)).mergeSort
    (fun a b => a.timestamp ≤ b.timestamp)
  match ud with
  | [] => none
  | first :: rest =>
    let steps := ((first :: rest).foldl (stepFold thr cd) (0, 0)).1
    let lastTs := ((first :: rest).getLast (List.cons_ne_nil first rest)).timestamp
    let time_span := (lastTs - first.timestamp) / 60
    if 0 < time_span then some ((steps : ℝ) / time_span) else none

/-- The `user_speeds` dictionary: one entry per distinct user with a positive
time span. -/
noncomputable def userSpeeds (thr cd : ℝ) (locData : List AccelerometerData) :
    List (String × ℝ) :=
  ((locData.map (·.user_id)).dedup).filterMap (fun uid =>
    (userSpeedEntry thr cd locData uid).map (fun v => (uid, v)))

/-- Model of `avg_speed`: mean of the recorded user speeds, `0` when there are none. -/
noncomputable def avgSpeed (us : List (String × ℝ)) : ℝ :=
  if us = [] then 0 else (us.map Prod.snd).sum / (us.length : ℝ)

/-- Model of `speed_factor = max(0, min(1, 1 - avg_speed / 100))`. -/
noncomputable def speedFactor (thr cd : ℝ) (locData : List AccelerometerData) : ℝ :=
  max 0 (min 1 (1 - avgSpeed (userSpeeds thr cd locData) / 100))

/-- Model of `np.var`: population variance, `(Σ (m - mean)^2) / n`. -/
noncomputable def npVar (l : List ℝ) : ℝ :=
  let μ := l.sum / (l.length : ℝ)
  (l.map (fun m => (m - μ) ^ 2)).sum / (l.length : ℝ)

/-- Model of `variance_factor`: `min(1, var / 5)` when at least two magnitudes exist,
otherwise `0`. -/
noncomputable def varianceFactor (mags : List ℝ) : ℝ :=
  if 1 < mags.length then min 1 (npVar mags / 5) else 0

/-- Model of `density_factor = min(1, unique_users / 20)`. -/
noncomputable def densityFactor (uniqueUsers : ℕ) : ℝ :=
  min 1 ((uniqueUsers : ℝ) / 20)

/-- The cache-miss body of `calculate_congestion`: clean expired data; with no
remaining samples the rate is `0` (and nothing is memoized); otherwise combine
the three weighted factors and memoize `(rate, now)`. -/
noncomputable def calcCongestionCore (now : ℝ) (s : CongestionProcessor)
    (location_id : String) : ℝ × CongestionProcessor :=
  let s1 := cleanExpiredData now s location_id
  match alookup s1.data_cache location_id with
  | none => (0, s1)
  | some [] => (0, s1)
  | some (d0 :: ds) =>
    let locData := d0 :: ds
    let uniqueUsers := ((locData.map (·.user_id)).dedup).length
    let sf := speedFactor s1.step_threshold s1.step_cooldown locData
    let vf := varianceFactor (locData.map (·.magnitude))
    let df := densityFactor uniqueUsers
    let rate := 0.5 * sf + 0.3 * vf + 0.2 * df
    (rate, { s1 with congestion_cache := ainsert s1.congestion_cache location_id (rate, now) })

/-- Model of `CongestionProcessor.calculate_congestion`: return a memoized rate younger
than 60 seconds unchanged, otherwise recompute via `calcCongestionCore`. -/
noncomputable def calculateCongestion (now : ℝ) (s : CongestionProcessor)
    (location_id : String) : ℝ × CongestionProcessor :=
  match alookup s.congestion_cache location_id with
  | some rts => if now - rts.2 < 60 then (rts.1, s) else calcCongestionCore now s location_id
  | none => calcCongestionCore now s location_id

/-- Model of `CongestionProcessor.get_congestion_between_nodes`: canonicalize the pair
into `path_{min}_{max}` and delegate to `calculate_congestion`. -/
noncomputable def getCongestionBetweenNodes (now : ℝ) (s : CongestionProcessor)
    (node1_id node2_id : String) : ℝ × CongestionProcessor :=
  calculateCongestion now s
    ("path_" ++ min node1_id node2_id ++ "_" ++ max node1_id node2_id)

/-- Model of `CongestionProcessor.get_all_congestion_rates`: iterate over the snapshot
of cache keys; for each location clean expired data and, if samples remain,
record its congestion rate. -/
noncomputable def getAllCongestionRates (now : ℝ) (s : CongestionProcessor) :
    List (String × ℝ) × CongestionProcessor :=
  (s.data_cache.map Prod.fst).foldl (fun acc loc =>
    let s1 := cleanExpiredData now acc.2 loc
    match alookup s1.data_cache loc with
    | some (_ :: _) =>
      let rs := calculateCongestion now s1 loc
      (acc.1 ++ [(loc, rs.1)], rs.2)
    | _ => (acc.1, s1)) (([] : List (String × ℝ)), s)

/-- A raw batch entry: a Python dict that should carry the six sample fields;
a missing field is `none` and reading it raises `KeyError`. -/
structure SampleDict where
  x : Option ℝ
  y : Option ℝ
  z : Option ℝ
  timestamp : Option ℝ
  user_id : Option String
  location_id : Option String

/-- Reading the six required fields of a batch entry
(`data_point['x']`, ..., `data_point['location_id']`); `none` models the
`KeyError` raised on the first missing field. -/
def readSample (d : SampleDict) : Option AccelerometerData :=
  match d.x, d.y, d.z, d.timestamp, d.user_id, d.location_id with
  | some x, some y, some z, some t, some u, some l => some ⟨x, y, z, t, u, l⟩
  | _, _, _, _, _, _ => none

/-- Model of `CongestionProcessor.process_accelerometer_batch`: ingest the entries in
order; the first malformed entry raises, aborting the call (result `none`)
with the state as mutated so far; a fully well-formed batch returns the
refreshed rates. -/
noncomputable def processAccelerometerBatch (now : ℝ) (s : CongestionProcessor) :
    List SampleDict → CongestionProcessor × Option (List (String × ℝ))
  | [] =>
    let rs := getAllCongestionRates now s
    (rs.2, some rs.1)
  | d :: rest =>
    match readSample d with
    | some a => processAccelerometerBatch now (addDataPoint now s a) rest
    | none => (s, none)

/-! ## Path finder (`path_finder.py`, `PathFinder.find_path`) -/

/-- The congestion multiplier applied to an edge while expanding `current`
towards `neighbor`: the snapshot is consulted first at `(current, neighbor)`,
then at `(neighbor, current)`; a hit with rate `r` gives `1 + r * 2`, and a
miss in both orientations gives `1`. -/
noncomputable def congestionFactor (cong : String × String → Option ℝ)
    (current neighbor : String) : ℝ :=
  match cong (current, neighbor) with
  | some r => 1 + r * 2
  | none =>
    match cong (neighbor, current) with
    | some r => 1 + r * 2
    | none => 1

/-- The traversal cost charged for one edge during the search:
`distance = base_distance * congestion_factor`. -/
noncomputable def edgeCost (cong : String × String → Option ℝ)
    (current neighbor : String) (base_distance : ℝ) : ℝ :=
  base_distance * congestionFactor cong current neighbor

/-- Model of `PathFinder._heuristic`: planar Euclidean distance combined with
`abs(floor1 - floor2) * 5` by a second Pythagorean step. -/
noncomputable def heuristicOf (n1 n2 : Node) : ℝ :=
  let dx := n1.x - n2.x
  let dy := n1.y - n2.y
  let horizontal_dist := Real.sqrt (dx ^ 2 + dy ^ 2)
  let floor_dist : ℝ := ((|n1.floor - n2.floor| : ℤ) : ℝ) * 5
  Real.sqrt (horizontal_dist ^ 2 + floor_dist ^ 2)

/-- The mutable locals of the `find_path` loop: the `heapq` frontier, the
closed set, the `g_score`, `f_score` and `came_from` dictionaries. -/
structure AStarState where
  openList : List (ℝ × String)
  closedSet : Finset String
  gScore : List (String × ℝ)
  fScore : List (String × ℝ)
  cameFrom : List (String × String)

/-- The smaller of two `(f_score, node_id)` heap entries under the tuple order
used by `heapq`. -/
noncomputable def pairMin (a b : ℝ × String) : ℝ × String :=
  if b.1 < a.1 ∨ (b.1 = a.1 ∧ b.2 < a.2) then b else a

/-- The minimum heap entry (what `heapq.heappop` returns). -/
noncomputable def heapMinFrom : (ℝ × String) → List (ℝ × String) → ℝ × String
  | m, [] => m
  | m, e :: rest => heapMinFrom (pairMin m e) rest

/-- Remove one occurrence of the popped entry from the frontier. -/
noncomputable def removeFirst : List (ℝ × String) → (ℝ × String) → List (ℝ × String)
  | [], _ => []
  | e :: rest, m => if e = m then rest else e :: removeFirst rest m

/-- One neighbor relaxation of the `find_path` inner loop: closed neighbors
are skipped; otherwise the tentative score `g_score[current] + edgeCost` is
compared with the recorded score, and on improvement the predecessor, scores
and frontier entry are updated.  The `f_score` update reads both node records
for the heuristic; a dangling neighbor id makes that lookup raise (`none`). -/
noncomputable def relaxNeighbor (g : BuildingGraph)
    (cong : String × String → Option ℝ) (end_id current : String) (gCur : ℝ)
    (st : AStarState) (nb : String × ℝ) : Option AStarState :=
  if nb.1 ∈ st.closedSet then some st
  else
    let tentative := gCur + edgeCost cong current nb.1 nb.2
    let push : Option AStarState :=
      match alookup g.nodes nb.1, alookup g.nodes end_id with
      | some n1, some n2 =>
        let f := tentative + heuristicOf n1 n2
        some (AStarState.mk (st.openList ++ [(f, nb.1)]) st.closedSet
          (ainsert st.gScore nb.1 tentative) (ainsert st.fScore nb.1 f)
          (ainsert st.cameFrom nb.1 current))
      | _, _ => none
    match alookup st.gScore nb.1 with
    | some oldG => if tentative < oldG then push else some st
    | none => push

/-- Relax every neighbor of the popped node, in dictionary order. -/
noncomputable def relaxAll (g : BuildingGraph)
    (cong : String × String → Option ℝ) (end_id current : String) (gCur : ℝ) :
    List (String × ℝ) → AStarState → Option AStarState
  | [], st => some st
  | nb :: rest, st =>
    match relaxNeighbor g cong end_id current gCur st nb with
    | none => none
    | some st1 => relaxAll g cong end_id current gCur rest st1

/-- Model of `PathFinder._reconstruct_path` before the final reversal: the chain
`current, came_from[current], ...` followed while a predecessor exists.
The fuel argument bounds the `while` loop; `none` marks a chain that still
has a predecessor after `fuel` steps, which in the source is an infinite
loop (a cyclic `came_from`). -/
def reconstructChain : ℕ → List (String × String) → String → Option (List String)
  | 0, came, cur =>
    match alookup came cur with
    | none => some [cur]
    | some _ => none
  | fuel + 1, came, cur =>
    match alookup came cur with
    | none => some [cur]
    | some prev => (reconstructChain fuel came prev).map (fun l => cur :: l)

/-- Outcome of a `find_path` run: a returned path, a `KeyError`, a
non-terminating path reconstruction, or exhaustion of the loop fuel. -/
inductive AStarResult where
  | path (p : List String)
  | keyError
  | reconLoop
  | fuelOut
deriving DecidableEq

/-- The `while open_set` loop of `find_path`.  Each iteration pops the
minimum heap entry; the goal returns the reconstructed path (the source
reconstructs before adding the goal to the closed set), and any other node is
closed and its neighbors relaxed.  `fuelOut` marks an iteration budget
exhausted before the loop finished. -/
noncomputable def astarLoop (g : BuildingGraph) (end_id : String)
    (cong : String × String → Option ℝ) : ℕ → AStarState → AStarResult
  | 0, _ => .fuelOut
  | fuel + 1, st =>
    match st.openList with
    | [] => .path []
    | e :: rest =>
      let m := heapMinFrom e rest
      let current := m.2
      if current = end_id then
        match reconstructChain (st.cameFrom.length + 1) st.cameFrom current with
        | some chain => .path chain.reverse
        | none => .reconLoop
      else
        let st1 := AStarState.mk (removeFirst (e :: rest) m)
          (insert current st.closedSet) st.gScore st.fScore st.cameFrom
        match alookup g.nodes current, alookup st.gScore current with
        | some node, some gCur =>
          match relaxAll g cong end_id current gCur node.neighbors st1 with
          | none => .keyError
          | some st2 => astarLoop g end_id cong fuel st2
        | _, _ => .keyError

/-- Model of `PathFinder.find_path`: an absent start or goal id returns the empty path
without searching; otherwise the loop starts from the frontier `[(0, start)]`,
`g_score = {start: 0}` and `f_score = {start: heuristic(start, goal)}`. -/
noncomputable def findPath (g : BuildingGraph) (start_id end_id : String)
    (cong : String × String → Option ℝ) (fuel : ℕ) : AStarResult :=
  match alookup g.nodes start_id, alookup g.nodes end_id with
  | some sNode, some eNode =>
    let st0 := AStarState.mk [(0, start_id)] ∅ [(start_id, 0)]
      [(start_id, heuristicOf sNode eNode)] []
    astarLoop g end_id cong fuel st0
  | _, _ => .path []

/-- One hop of the graph's adjacency: `a`'s node exists and `b` is a key of
its neighbor dictionary. -/
def adjacentNodes (g : BuildingGraph) (a b : String) : Prop :=
  ∃ n, alookup g.nodes a = some n ∧ b ∈ n.neighbors.map Prod.fst

/-- Connectivity along neighbor entries (the sense in which a goal in another
component is unreachable). -/
def reachableIn (g : BuildingGraph) : String → String → Prop :=
  Relation.ReflTransGen (adjacentNodes g)

/-! ## Derived predicates and measures used by the verification -/

/-- A memoized congestion rate for `loc` younger than the 60-second freshness
window (the condition under which `calculate_congestion` short-circuits). -/
def freshMemo (now : ℝ) (s : CongestionProcessor) (loc : String) : Prop :=
  ∃ r ts, alookup s.congestion_cache loc = some (r, ts) ∧ now - ts < 60

/-- The samples held for `loc` after the expiry eviction that
`calculate_congestion` performs on a cache miss (absent entry ≡ no samples). -/
noncomputable def cleanedSamples (now : ℝ) (s : CongestionProcessor)
    (loc : String) : List AccelerometerData :=
  (alookup (cleanExpiredData now s loc).data_cache loc).getD []

/-- States of the congestion estimator whose memo cache only holds rates in
`[0, 1]` (the data-model invariant for congestion rates). -/
def ValidMemoCache (s : CongestionProcessor) : Prop :=
  ∀ loc r ts, alookup s.congestion_cache loc = some (r, ts) → 0 ≤ r ∧ r ≤ 1

/-- The invariant maintained by every iteration of the `find_path` loop.
`gScore` keys are exactly the discovered nodes: they are reachable from the
start, they are covered by the closed set and the frontier, every closed
node's neighbors have been discovered and cannot be improved via that closed
node, and predecessors link discovered nodes.  The goal is never closed
because popping it returns first. -/
structure AStarInv (g : BuildingGraph) (start_id end_id : String)
    (cong : String × String → Option ℝ) (st : AStarState) : Prop where
  open_g : ∀ pr ∈ st.openList, (alookup st.gScore pr.2).isSome
  open_nodes : ∀ pr ∈ st.openList, (alookup g.nodes pr.2).isSome
  closed_g : ∀ c ∈ st.closedSet, (alookup st.gScore c).isSome
  closed_nodes : ∀ c ∈ st.closedSet, (alookup g.nodes c).isSome
  reach_g : ∀ k, (alookup st.gScore k).isSome → reachableIn g start_id k
  g_cover : ∀ k, (alookup st.gScore k).isSome →
    k ∈ st.closedSet ∨ ∃ pr ∈ st.openList, pr.2 = k
  start_g : (alookup st.gScore start_id).isSome
  closure : ∀ c ∈ st.closedSet, ∀ n, alookup g.nodes c = some n →
    ∀ pr ∈ n.neighbors, (alookup st.gScore pr.1).isSome
  relaxbound : ∀ c ∈ st.closedSet, ∀ n, alookup g.nodes c = some n →
    ∀ pr ∈ n.neighbors, pr.1 ∉ st.closedSet →
    ∀ gc gn, alookup st.gScore c = some gc → alookup st.gScore pr.1 = some gn →
      gn ≤ gc + edgeCost cong c pr.1 pr.2
  came_g : ∀ nid mid, alookup st.cameFrom nid = some mid →
    (alookup st.gScore nid).isSome ∧ (alookup st.gScore mid).isSome
  came_cover : ∀ k, (alookup st.gScore k).isSome → k ≠ start_id →
    (alookup st.cameFrom k).isSome
  end_not_closed : end_id ∉ st.closedSet

/-- Predecessor links strictly decrease the recorded `g_score`; with strictly
positive edge costs this holds throughout the search and makes the
`came_from` chains acyclic. -/
def CameDecreasing (st : AStarState) : Prop :=
  ∀ nid mid, alookup st.cameFrom nid = some mid →
    ∃ gn gm, alookup st.gScore nid = some gn ∧ alookup st.gScore mid = some gm ∧
      gm < gn

/-- The node ids of the graph, as a finite set. -/
noncomputable def graphKeys (g : BuildingGraph) : Finset String :=
  (g.nodes.map Prod.fst).toFinset

/-- An upper bound on the number of neighbor entries of any node. -/
def maxDegree (g : BuildingGraph) : ℕ :=
  (g.nodes.map (fun p => p.2.neighbors.length)).foldr max 0

/-- Termination measure for the `find_path` loop: every iteration either
closes a fresh node (paying for at most `maxDegree` pushes) or pops without
pushing. -/
noncomputable def loopMeasure (g : BuildingGraph) (st : AStarState) : ℕ :=
  st.openList.length + ((graphKeys g).card - st.closedSet.card) * (maxDegree g + 1)

/-- The loop invariant in the middle of relaxing the neighbors of the node
`current` that was just closed: every `AStarInv` field except that the
neighbor-closure and no-improvement facts (`closure2`, `relaxbound2`) are
only known for the previously closed nodes; the fold over `current`'s
neighbor list establishes them for `current`. -/
structure MidInv (g : BuildingGraph) (start_id end_id : String)
    (cong : String × String → Option ℝ) (current : String) (st : AStarState) : Prop where
  open_g : ∀ pr ∈ st.openList, (alookup st.gScore pr.2).isSome
  open_nodes : ∀ pr ∈ st.openList, (alookup g.nodes pr.2).isSome
  closed_g : ∀ c ∈ st.closedSet, (alookup st.gScore c).isSome
  closed_nodes : ∀ c ∈ st.closedSet, (alookup g.nodes c).isSome
  reach_g : ∀ k, (alookup st.gScore k).isSome → reachableIn g start_id k
  g_cover : ∀ k, (alookup st.gScore k).isSome →
    k ∈ st.closedSet ∨ ∃ pr ∈ st.openList, pr.2 = k
  start_g : (alookup st.gScore start_id).isSome
  closure2 : ∀ c ∈ st.closedSet, c ≠ current → ∀ n, alookup g.nodes c = some n →
    ∀ pr ∈ n.neighbors, (alookup st.gScore pr.1).isSome
  relaxbound2 : ∀ c ∈ st.closedSet, c ≠ current → ∀ n, alookup g.nodes c = some n →
    ∀ pr ∈ n.neighbors, pr.1 ∉ st.closedSet →
    ∀ gc gn, alookup st.gScore c = some gc → alookup st.gScore pr.1 = some gn →
      gn ≤ gc + edgeCost cong c pr.1 pr.2
  came_g : ∀ nid mid, alookup st.cameFrom nid = some mid →
    (alookup st.gScore nid).isSome ∧ (alookup st.gScore mid).isSome
  came_cover : ∀ k, (alookup st.gScore k).isSome → k ≠ start_id →
    (alookup st.cameFrom k).isSome
  end_not_closed : end_id ∉ st.closedSet
  cur_closed : current ∈ st.closedSet

/-- All edge distances recorded in the graph are strictly positive. -/
def PositiveDistances (g : BuildingGraph) : Prop :=
  ∀ k n, alookup g.nodes k = some n → ∀ pr ∈ n.neighbors, 0 < pr.2

/-- All rates present in a congestion snapshot are non-negative. -/
def NonnegSnapshot (cong : String × String → Option ℝ) : Prop :=
  ∀ a b r, cong (a, b) = some r → 0 ≤ r

/-- Every neighbor entry references an existing node (the documented graph
invariant; it holds for every graph built through `add_node`/`add_edge`). -/
def NeighborClosed (g : BuildingGraph) : Prop :=
  ∀ k n, alookup g.nodes k = some n → ∀ pr ∈ n.neighbors, (alookup g.nodes pr.1).isSome

/-! ## Basic lemmas about the dictionary model -/

open scoped Classical

theorem alookup_isSome_iff {α : Type} (l : List (String × α)) (k : String) :
    (alookup l k).isSome ↔ k ∈ l.map Prod.fst := by
  induction l with
  | nil => simp
  | cons hd tl ih =>
    obtain ⟨k1, v1⟩ := hd
    by_cases h : k = k1 <;> simp [h, ih]

theorem alookup_mem {α : Type} {l : List (String × α)} {k : String} {v : α}
    (h : alookup l k = some v) : (k, v) ∈ l := by
  induction l with
  | nil => simp at h
  | cons hd tl ih =>
    obtain ⟨k1, v1⟩ := hd
    by_cases h1 : k = k1
    · subst h1
      rw [alookup_cons, if_pos rfl] at h
      injection h with hv
      simp [hv]
    · rw [alookup_cons, if_neg h1] at h
      simp [ih h]

theorem foldr_max_le_of_mem {l : List ℕ} {x : ℕ} (h : x ∈ l) :
    x ≤ l.foldr max 0 := by
  induction l with
  | nil => simp at h
  | cons hd tl ih =>
    rcases List.mem_cons.mp h with h1 | h1
    · subst h1; simp [List.foldr_cons, le_max_left]
    · exact le_trans (ih h1) (by simp [List.foldr_cons, le_max_right])

theorem modifyNode_lookup_self (g : BuildingGraph) (k : String) (f : Node → Node)
    (n : Node) (h : alookup g.nodes k = some n) :
    alookup (g.modifyNode k f).nodes k = some (f n) := by
  simp [BuildingGraph.modifyNode, h, alookup_ainsert_self]

theorem modifyNode_lookup_ne (g : BuildingGraph) (k : String) (f : Node → Node)
    (k2 : String) (h : k2 ≠ k) :
    alookup (g.modifyNode k f).nodes k2 = alookup g.nodes k2 := by
  unfold BuildingGraph.modifyNode
  cases hl : alookup g.nodes k with
  | none => rfl
  | some n => simp [alookup_ainsert_ne _ _ _ _ h]

/-! ## C4: the edge cost charged during search -/

/-- C4 (confirmed).  During path search the traversal cost charged for an
edge of base length `base` from `current` to `neighbor` is
`base * (1 + rate * 2)`, where the rate is looked up first at
`(current, neighbor)` and, failing that, at `(neighbor, current)`; an edge
absent from the snapshot in both orientations costs exactly `base`, and a
fully congested edge (rate `1.0`) costs exactly `3 * base`. -/
theorem C4_edge_cost_formula (cong : String × String → Option ℝ)
    (current neighbor : String) (base r : ℝ) :
    (cong (current, neighbor) = some r →
      edgeCost cong current neighbor base = base * (1 + r * 2)) ∧
    (cong (current, neighbor) = none → cong (neighbor, current) = some r →
      edgeCost cong current neighbor base = base * (1 + r * 2)) ∧
    (cong (current, neighbor) = none → cong (neighbor, current) = none →
      edgeCost cong current neighbor base = base) ∧
    (cong (current, neighbor) = some 1 →
      edgeCost cong current neighbor base = 3 * base) := by
  refine ⟨fun h1 => ?_, fun h1 h2 => ?_, fun h1 h2 => ?_, fun h1 => ?_⟩
  · simp [edgeCost, congestionFactor, h1]
  · simp [edgeCost, congestionFactor, h1, h2]
  · simp [edgeCost, congestionFactor, h1, h2]
  · simp [edgeCost, congestionFactor, h1]
    ring

/-- Witness for C4 at a concrete snapshot: the fully congested edge
`("a", "b")` with base distance `2` is charged `3 * 2`. -/
theorem C4_edge_cost_formula_witness :
    edgeCost (fun p => if p = ("a", "b") then some 1 else none) "a" "b" 2 = 3 * 2 :=
  (C4_edge_cost_formula (fun p => if p = ("a", "b") then some 1 else none)
    "a" "b" 2 1).2.2.2 (by simp)

/-! ## C5: symmetry of the per-edge congestion estimate -/

/-- C5 (confirmed).  `get_congestion_between_nodes` is symmetric in its two
node ids: both orders canonicalize to the location key
`path_{min}_{max}` and delegate to the same `calculate_congestion` call, so
the returned rate and the updated estimator state coincide. -/
theorem C5_estimate_between_symm (now : ℝ) (s : CongestionProcessor)
    (node1_id node2_id : String) :
    getCongestionBetweenNodes now s node1_id node2_id =
      getCongestionBetweenNodes now s node2_id node1_id := by
  unfold getCongestionBetweenNodes
  rw [min_comm, max_comm]

/-! ## C2: re-adding an existing node id -/

/-- Counterexample to C2 as stated.  The claim says a second `add_node` with
an id already present is an error that does not silently overwrite; in the
source `add_node` unconditionally stores a fresh node.  Re-adding `"a"` with
new data replaces the stored node with a different one, so the existing node
is silently overwritten and no failure occurs. -/
theorem C2_counterexample :
    alookup ((BuildingGraph.empty.add_node "a" 1 2 3).1.nodes) "a" =
        some (Node.mk "a" 1 2 3 []) ∧
    alookup (((BuildingGraph.empty.add_node "a" 1 2 3).1.add_node "a" 4 5 6).1.nodes)
        "a" = some (Node.mk "a" 4 5 6 []) ∧
    Node.mk "a" (4 : ℝ) 5 6 [] ≠ Node.mk "a" 1 2 3 [] := by
  refine ⟨by simp [BuildingGraph.empty, BuildingGraph.add_node],
    by simp [BuildingGraph.empty, BuildingGraph.add_node, ainsert],
    fun h => ?_⟩
  have : (4 : ℝ) = 1 := congrArg Node.x h
  norm_num at this

/-- C2 (corrected).  Calling `add_node` with an id already present in the
graph does not fail: it silently overwrites the entry with a freshly built
node (new coordinates and an empty neighbor dictionary). -/
theorem C2_add_node_overwrites (g : BuildingGraph) (node_id : String) (x y : ℝ)
    (floor : ℤ) (n0 : Node) (_h : alookup g.nodes node_id = some n0) :
    alookup ((g.add_node node_id x y floor).1.nodes) node_id =
      some (Node.mk node_id x y floor []) := by
  simp [BuildingGraph.add_node, alookup_ainsert_self]

/-- Witness for C2's amended statement on a concrete graph that already
holds `"a"`. -/
theorem C2_add_node_overwrites_witness :
    alookup (((BuildingGraph.empty.add_node "a" 1 2 3).1.add_node "a" 4 5 6).1.nodes)
      "a" = some (Node.mk "a" 4 5 6 []) :=
  C2_add_node_overwrites (BuildingGraph.empty.add_node "a" 1 2 3).1 "a" 4 5 6
    (Node.mk "a" 1 2 3 []) (by simp [BuildingGraph.empty, BuildingGraph.add_node])

/-! ## C8: negative edge distances -/

/-- Counterexample to C8 as stated.  The claim says adding an edge with a
negative distance fails immediately and reachable graphs only hold
non-negative distances; `add_edge` only checks that both endpoints exist, so
a graph built by `add_node`/`add_edge` operations can store the distance
`-1`. -/
theorem C8_counterexample :
    ∃ na, alookup (((BuildingGraph.empty.add_node "a" 0 0 0).1.add_node "b" 0 0 0).1.add_edge
        "a" "b" (-1)).nodes "a" = some na ∧
      alookup na.neighbors "b" = some (-1) ∧ (-1 : ℝ) < 0 := by
  refine ⟨Node.mk "a" 0 0 0 [("b", -1)], ?_, by simp, by norm_num⟩
  simp [BuildingGraph.empty, BuildingGraph.add_node, BuildingGraph.add_edge,
    BuildingGraph.modifyNode, Node.add_neighbor, ainsert]

/-- C8 (corrected).  `add_edge` performs no distance validation: whenever both
endpoint ids exist, it records the given distance — of any sign — in both
neighbor dictionaries. -/
theorem C8_add_edge_unvalidated (g : BuildingGraph) (a b : String) (d : ℝ)
    (ha : (alookup g.nodes a).isSome) (hb : (alookup g.nodes b).isSome) :
    (∃ na, alookup (g.add_edge a b d).nodes a = some na ∧
      alookup na.neighbors b = some d) ∧
    (∃ nb, alookup (g.add_edge a b d).nodes b = some nb ∧
      alookup nb.neighbors a = some d) := by
  obtain ⟨na0, hna0⟩ := Option.isSome_iff_exists.mp ha
  obtain ⟨nb0, hnb0⟩ := Option.isSome_iff_exists.mp hb
  unfold BuildingGraph.add_edge
  rw [if_pos ⟨ha, hb⟩]
  by_cases hab : a = b
  · subst hab
    have h1 := modifyNode_lookup_self g a (·.add_neighbor a d) na0 hna0
    have h2 := modifyNode_lookup_self (g.modifyNode a (·.add_neighbor a d)) a
      (·.add_neighbor a d) _ h1
    refine ⟨⟨_, h2, ?_⟩, ⟨_, h2, ?_⟩⟩ <;>
      simp [Node.add_neighbor, alookup_ainsert_self]
  · have h1 := modifyNode_lookup_self g a (·.add_neighbor b d) na0 hna0
    have h2 : alookup ((g.modifyNode a (·.add_neighbor b d)).modifyNode b
        (·.add_neighbor a d)).nodes a = some (na0.add_neighbor b d) := by
      rw [modifyNode_lookup_ne _ _ _ _ hab]
      exact h1
    have h3 : alookup (g.modifyNode a (·.add_neighbor b d)).nodes b = some nb0 := by
      rw [modifyNode_lookup_ne _ _ _ _ (Ne.symm hab)]
      exact hnb0
    have h4 := modifyNode_lookup_self (g.modifyNode a (·.add_neighbor b d)) b
      (·.add_neighbor a d) nb0 h3
    exact ⟨⟨_, h2, by simp [Node.add_neighbor, alookup_ainsert_self]⟩,
      ⟨_, h4, by simp [Node.add_neighbor, alookup_ainsert_self]⟩⟩

/-- Witness for C8's amended statement: inserting the negative distance `-1`
between two existing nodes succeeds in both directions. -/
theorem C8_add_edge_unvalidated_witness :
    (∃ na, alookup (((BuildingGraph.empty.add_node "a" 0 0 0).1.add_node "b" 0 0 0).1.add_edge
        "a" "b" (-1)).nodes "a" = some na ∧ alookup na.neighbors "b" = some (-1)) ∧
    (∃ nb, alookup (((BuildingGraph.empty.add_node "a" 0 0 0).1.add_node "b" 0 0 0).1.add_edge
        "a" "b" (-1)).nodes "b" = some nb ∧ alookup nb.neighbors "a" = some (-1)) :=
  C8_add_edge_unvalidated ((BuildingGraph.empty.add_node "a" 0 0 0).1.add_node "b" 0 0 0).1
    "a" "b" (-1)
    (by simp [BuildingGraph.empty, BuildingGraph.add_node, ainsert])
    (by simp [BuildingGraph.empty, BuildingGraph.add_node, ainsert])

/-! ## C9: the trivial path from a node to itself -/

/-- C9 (confirmed).  For every graph and node id `x` present in it,
`find_path(x, x, {})` returns the single-element path `[x]`: the first loop
iteration pops `x`, recognizes it as the goal and reconstructs from an empty
predecessor map.  Any positive iteration budget suffices. -/
theorem C9_self_path (g : BuildingGraph) (x : String) (fuel : ℕ)
    (h : (alookup g.nodes x).isSome) :
    findPath g x x (fun _ => none) (fuel + 1) = .path [x] := by
  obtain ⟨n, hn⟩ := Option.isSome_iff_exists.mp h
  unfold findPath
  rw [hn]
  simp [astarLoop, heapMinFrom, reconstructChain]

/-- Witness for C9 on a one-node graph. -/
theorem C9_self_path_witness :
    findPath (BuildingGraph.empty.add_node "a" 0 0 0).1 "a" "a" (fun _ => none) 1 =
      .path ["a"] :=
  C9_self_path (BuildingGraph.empty.add_node "a" 0 0 0).1 "a" 0
    (by simp [BuildingGraph.empty, BuildingGraph.add_node])

/-! ## C7: smoothing with one point per segment versus direct projection -/

/-- Counterexample to C7 as stated.  With only `"a"` registered,
`generate_smooth_path(["a", "b"], 1)` drops the whole segment (both endpoints
must resolve) and the final point (unresolved), returning `[]`, while
`path_to_3d_coordinates` keeps `"a"`'s point.  So smoothing with
`points_per_segment = 1` is not always the direct projection. -/
theorem C7_counterexample :
    (ModelPathMatcher.mk 1 4 [("a", Point3D.mk 0 0 0)]).generate_smooth_path
        ["a", "b"] 1 ≠
      (ModelPathMatcher.mk 1 4 [("a", Point3D.mk 0 0 0)]).path_to_3d_coordinates
        ["a", "b"] := by
  have h1 : (ModelPathMatcher.mk 1 4 [("a", Point3D.mk 0 0 0)]).generate_smooth_path
      ["a", "b"] 1 = [] := by
    simp [ModelPathMatcher.generate_smooth_path, smoothSegment]
  have h2 : (ModelPathMatcher.mk 1 4 [("a", Point3D.mk 0 0 0)]).path_to_3d_coordinates
      ["a", "b"] = [Point3D.mk 0 0 0] := by
    simp [ModelPathMatcher.path_to_3d_coordinates]
  rw [h1, h2]
  exact (List.cons_ne_nil (Point3D.mk 0 0 0) []).symm

/-- The segment part of `generate_smooth_path` with one point per segment:
when every node of the path resolves, each consecutive pair contributes
exactly its start position. -/
theorem smooth_segments_flatten_eq (m : ModelPathMatcher) (path : List String)
    (h : ∀ id ∈ path, (alookup m.node_positions id).isSome) :
    ((path.zip path.tail).map (smoothSegment m 1)).flatten =
      path.dropLast.filterMap (alookup m.node_positions) := by
  induction path with
  | nil => simp
  | cons a t ih =>
    cases t with
    | nil => simp
    | cons b t2 =>
      obtain ⟨pa, hpa⟩ := Option.isSome_iff_exists.mp (h a (by simp))
      obtain ⟨pb, hpb⟩ := Option.isSome_iff_exists.mp (h b (by simp))
      have ih2 := ih (fun id hid => h id (List.mem_cons_of_mem a hid))
      simp only [List.tail_cons] at ih2
      simp only [List.tail_cons, List.zip_cons_cons, List.map_cons,
        List.flatten_cons, ih2]
      simp [smoothSegment, hpa, hpb]

/-- C7 (corrected).  `smooth(path, 1)` equals `project(path)` for every path
all of whose nodes are registered (and unconditionally for degenerate paths
of length `< 2`); with an unregistered node on the path the two can differ,
as the counterexample shows. -/
theorem C7_smooth_one_eq_project (m : ModelPathMatcher) (path : List String)
    (h : ∀ id ∈ path, (alookup m.node_positions id).isSome) :
    m.generate_smooth_path path 1 = m.path_to_3d_coordinates path := by
  by_cases hlen : path.length < 2
  · simp [ModelPathMatcher.generate_smooth_path, hlen]
  · have hne : path ≠ [] := by
      intro he
      rw [he] at hlen
      simp at hlen
    unfold ModelPathMatcher.generate_smooth_path
    rw [if_neg hlen, smooth_segments_flatten_eq m path h,
      List.getLast?_eq_getLast path hne]
    obtain ⟨plast, hplast⟩ :=
      Option.isSome_iff_exists.mp (h _ (List.getLast_mem hne))
    rw [Option.some_bind, hplast]
    simp only [Option.toList_some]
    unfold ModelPathMatcher.path_to_3d_coordinates
    conv_rhs => rw [← List.dropLast_append_getLast hne]
    rw [List.filterMap_append]
    simp [hplast]

/-- Witness for C7's amended statement: a fully registered two-node path. -/
theorem C7_smooth_one_eq_project_witness :
    (ModelPathMatcher.mk 1 4 [("a", Point3D.mk 0 0 0), ("b", Point3D.mk 1 0 1)]).generate_smooth_path
        ["a", "b"] 1 =
      (ModelPathMatcher.mk 1 4 [("a", Point3D.mk 0 0 0), ("b", Point3D.mk 1 0 1)]).path_to_3d_coordinates
        ["a", "b"] :=
  C7_smooth_one_eq_project
    (ModelPathMatcher.mk 1 4 [("a", Point3D.mk 0 0 0), ("b", Point3D.mk 1 0 1)])
    ["a", "b"]
    (by
      intro id hid
      rcases List.mem_cons.mp hid with h1 | h1
      · subst h1; simp
      · simp at h1; subst h1; simp)

/-! ## C1: failure semantics of batch ingestion -/

/-- Counterexample to C1 as stated.  A batch holding a well-formed sample
followed by a sample missing its timestamp does fail (no rates are
returned), but the well-formed prefix has already been inserted: the
processor's data cache differs from its pre-call state, so the state is not
left exactly as it was. -/
theorem C1_counterexample :
    (processAccelerometerBatch 1000 (CongestionProcessor.init 300)
        [SampleDict.mk (some 0) (some 0) (some 0) (some 1000) (some "u") (some "L"),
         SampleDict.mk (some 0) (some 0) (some 0) none (some "u") (some "L")]).2 =
      none ∧
    (processAccelerometerBatch 1000 (CongestionProcessor.init 300)
        [SampleDict.mk (some 0) (some 0) (some 0) (some 1000) (some "u") (some "L"),
         SampleDict.mk (some 0) (some 0) (some 0) none (some "u") (some "L")]).1.data_cache ≠
      (CongestionProcessor.init 300).data_cache := by
  have hrun : processAccelerometerBatch 1000 (CongestionProcessor.init 300)
      [SampleDict.mk (some 0) (some 0) (some 0) (some 1000) (some "u") (some "L"),
       SampleDict.mk (some 0) (some 0) (some 0) none (some "u") (some "L")] =
      (CongestionProcessor.mk
        [("L", [AccelerometerData.mk 0 0 0 1000 "u" "L"])] [] 300 1.2 0.5, none) := by
    norm_num [processAccelerometerBatch, readSample, addDataPoint,
      cleanExpiredData, CongestionProcessor.init, ainsert]
  rw [hrun]
  refine ⟨rfl, fun hc => ?_⟩
  exact List.cons_ne_nil _ _ hc

/-- C1 (corrected).  A malformed sample anywhere in the batch makes the whole
call fail (no congestion snapshot is returned), and no sample from the
malformed entry onward is ingested — but the well-formed samples preceding it
have already been inserted one by one, so the estimator's state is the prior
state with exactly that prefix ingested, not the untouched prior state. -/
theorem C1_batch_prefix_inserted (now : ℝ) (s : CongestionProcessor)
    (pre : List SampleDict) (bad : SampleDict) (post : List SampleDict)
    (samples : List AccelerometerData)
    (hpre : pre.mapM readSample = some samples) (hbad : readSample bad = none) :
    processAccelerometerBatch now s (pre ++ bad :: post) =
      (samples.foldl (addDataPoint now) s, none) := by
  induction pre generalizing s samples with
  | nil =>
    simp only [List.mapM_nil, pure, Option.some.injEq] at hpre
    subst hpre
    simp [processAccelerometerBatch, hbad]
  | cons d t ih =>
    rw [List.mapM_cons] at hpre
    cases hd : readSample d with
    | none =>
      rw [hd] at hpre
      simp at hpre
    | some a =>
      rw [hd] at hpre
      cases ht : t.mapM readSample with
      | none =>
        rw [ht] at hpre
        simp at hpre
      | some as =>
        rw [ht] at hpre
        simp only [Option.bind_eq_bind, Option.some_bind, pure,
          Option.some.injEq] at hpre
        subst hpre
        simp only [List.cons_append, processAccelerometerBatch, hd,
          List.foldl_cons]
        exact ih (addDataPoint now s a) as ht

/-- Witness for C1's amended statement at a concrete batch: the well-formed
first sample is ingested, then the malformed second sample aborts the call. -/
theorem C1_batch_prefix_inserted_witness :
    processAccelerometerBatch 1000 (CongestionProcessor.init 300)
        ([SampleDict.mk (some 0) (some 0) (some 0) (some 1000) (some "u") (some "L")] ++
          SampleDict.mk (some 0) (some 0) (some 0) none (some "u") (some "L") :: []) =
      ([AccelerometerData.mk 0 0 0 1000 "u" "L"].foldl (addDataPoint 1000)
        (CongestionProcessor.init 300), none) :=
  C1_batch_prefix_inserted 1000 (CongestionProcessor.init 300)
    [SampleDict.mk (some 0) (some 0) (some 0) (some 1000) (some "u") (some "L")]
    (SampleDict.mk (some 0) (some 0) (some 0) none (some "u") (some "L")) []
    [AccelerometerData.mk 0 0 0 1000 "u" "L"]
    (by simp [List.mapM, List.mapM.loop, readSample]) (by simp [readSample])

/-! ## C6: range and structure of the congestion estimate -/

theorem speedFactor_range (thr cd : ℝ) (locData : List AccelerometerData) :
    0 ≤ speedFactor thr cd locData ∧ speedFactor thr cd locData ≤ 1 :=
  ⟨le_max_left 0 _, max_le zero_le_one (min_le_left 1 _)⟩

theorem npVar_nonneg (l : List ℝ) : 0 ≤ npVar l := by
  unfold npVar
  refine div_nonneg (List.sum_nonneg ?_) (Nat.cast_nonneg _)
  intro x hx
  obtain ⟨m, _, hm⟩ := List.mem_map.mp hx
  rw [← hm]
  positivity

theorem varianceFactor_range (mags : List ℝ) :
    0 ≤ varianceFactor mags ∧ varianceFactor mags ≤ 1 := by
  unfold varianceFactor
  by_cases h : 1 < mags.length
  · rw [if_pos h]
    constructor
    · exact le_min zero_le_one (div_nonneg (npVar_nonneg mags) (by norm_num))
    · exact min_le_left 1 _
  · rw [if_neg h]
    norm_num

theorem densityFactor_range (n : ℕ) :
    0 ≤ densityFactor n ∧ densityFactor n ≤ 1 := by
  unfold densityFactor
  constructor
  · exact le_min zero_le_one (div_nonneg (Nat.cast_nonneg n) (by norm_num))
  · exact min_le_left 1 _

theorem cleanExpiredData_fields (now : ℝ) (s : CongestionProcessor) (loc : String) :
    (cleanExpiredData now s loc).congestion_cache = s.congestion_cache ∧
    (cleanExpiredData now s loc).expiry_time = s.expiry_time ∧
    (cleanExpiredData now s loc).step_threshold = s.step_threshold ∧
    (cleanExpiredData now s loc).step_cooldown = s.step_cooldown := by
  unfold cleanExpiredData
  cases alookup s.data_cache loc <;> simp

theorem calcCongestionCore_empty (now : ℝ) (s : CongestionProcessor) (loc : String)
    (h : cleanedSamples now s loc = []) :
    (calcCongestionCore now s loc).1 = 0 := by
  unfold cleanedSamples at h
  simp only [calcCongestionCore]
  cases hl : alookup (cleanExpiredData now s loc).data_cache loc with
  | none => simp
  | some l =>
    rw [hl] at h
    simp only [Option.getD_some] at h
    subst h
    simp

theorem calcCongestionCore_formula (now : ℝ) (s : CongestionProcessor) (loc : String)
    (h : cleanedSamples now s loc ≠ []) :
    (calcCongestionCore now s loc).1 =
      0.5 * speedFactor s.step_threshold s.step_cooldown (cleanedSamples now s loc) +
      0.3 * varianceFactor ((cleanedSamples now s loc).map (·.magnitude)) +
      0.2 * densityFactor (((cleanedSamples now s loc).map (·.user_id)).dedup).length := by
  obtain ⟨hcache, hexp, hthr, hcd⟩ := cleanExpiredData_fields now s loc
  unfold cleanedSamples at h ⊢
  simp only [calcCongestionCore]
  cases hl : alookup (cleanExpiredData now s loc).data_cache loc with
  | none =>
    rw [hl] at h
    simp at h
  | some l =>
    rw [hl] at h
    simp only [Option.getD_some] at h ⊢
    cases l with
    | nil => simp at h
    | cons d0 ds => simp [hthr, hcd]

theorem calcCongestionCore_range (now : ℝ) (s : CongestionProcessor) (loc : String) :
    0 ≤ (calcCongestionCore now s loc).1 ∧ (calcCongestionCore now s loc).1 ≤ 1 := by
  by_cases h : cleanedSamples now s loc = []
  · rw [calcCongestionCore_empty now s loc h]
    norm_num
  · rw [calcCongestionCore_formula now s loc h]
    obtain ⟨hs0, hs1⟩ := speedFactor_range s.step_threshold s.step_cooldown
      (cleanedSamples now s loc)
    obtain ⟨hv0, hv1⟩ := varianceFactor_range ((cleanedSamples now s loc).map (·.magnitude))
    obtain ⟨hd0, hd1⟩ := densityFactor_range (((cleanedSamples now s loc).map (·.user_id)).dedup).length
    constructor <;> nlinarith

/-- C6 (confirmed).  For every valid estimator state (memoized rates within
`[0, 1]`, the data-model invariant) the rate returned by
`calculate_congestion` lies in `[0, 1]`; when no fresh memoized rate exists
it is exactly `0` if the location has no unexpired samples, and otherwise it
is `0.5 * speed + 0.3 * variance + 0.2 * density` with each factor
individually within `[0, 1]`. -/
theorem C6_estimate_range_and_formula (now : ℝ) (s : CongestionProcessor)
    (loc : String) (hvalid : ValidMemoCache s) :
    (0 ≤ (calculateCongestion now s loc).1 ∧ (calculateCongestion now s loc).1 ≤ 1) ∧
    (¬ freshMemo now s loc → cleanedSamples now s loc = [] →
      (calculateCongestion now s loc).1 = 0) ∧
    (¬ freshMemo now s loc → cleanedSamples now s loc ≠ [] →
      (calculateCongestion now s loc).1 =
        0.5 * speedFactor s.step_threshold s.step_cooldown (cleanedSamples now s loc) +
        0.3 * varianceFactor ((cleanedSamples now s loc).map (·.magnitude)) +
        0.2 * densityFactor (((cleanedSamples now s loc).map (·.user_id)).dedup).length ∧
      (0 ≤ speedFactor s.step_threshold s.step_cooldown (cleanedSamples now s loc) ∧
        speedFactor s.step_threshold s.step_cooldown (cleanedSamples now s loc) ≤ 1) ∧
      (0 ≤ varianceFactor ((cleanedSamples now s loc).map (·.magnitude)) ∧
        varianceFactor ((cleanedSamples now s loc).map (·.magnitude)) ≤ 1) ∧
      (0 ≤ densityFactor (((cleanedSamples now s loc).map (·.user_id)).dedup).length ∧
        densityFactor (((cleanedSamples now s loc).map (·.user_id)).dedup).length ≤ 1)) := by
  unfold calculateCongestion
  cases hm : alookup s.congestion_cache loc with
  | some rts =>
    obtain ⟨r, ts⟩ := rts
    by_cases hf : now - ts < 60
    · simp only [hf, if_true]
      have hr := hvalid loc r ts hm
      refine ⟨hr, fun hnf _ => ?_, fun hnf _ => ?_⟩ <;>
        exact absurd ⟨r, ts, hm, hf⟩ hnf
    · simp only [hf, if_false]
      exact ⟨calcCongestionCore_range now s loc,
        fun _ h => calcCongestionCore_empty now s loc h,
        fun _ h => ⟨calcCongestionCore_formula now s loc h,
          speedFactor_range _ _ _, varianceFactor_range _, densityFactor_range _⟩⟩
  | none =>
    exact ⟨calcCongestionCore_range now s loc,
      fun _ h => calcCongestionCore_empty now s loc h,
      fun _ h => ⟨calcCongestionCore_formula now s loc h,
        speedFactor_range _ _ _, varianceFactor_range _, densityFactor_range _⟩⟩

/-- Witness for C6 on the freshly initialized processor: the estimate is in
range and, with no samples and no memo, exactly `0`. -/
theorem C6_estimate_range_and_formula_witness :
    (0 ≤ (calculateCongestion 0 (CongestionProcessor.init 300) "L").1 ∧
      (calculateCongestion 0 (CongestionProcessor.init 300) "L").1 ≤ 1) ∧
    (calculateCongestion 0 (CongestionProcessor.init 300) "L").1 = 0 := by
  have h := C6_estimate_range_and_formula 0 (CongestionProcessor.init 300) "L"
    (by intro loc r ts hr; simp [CongestionProcessor.init] at hr)
  exact ⟨h.1, h.2.1 (by simp [freshMemo, CongestionProcessor.init])
    (by simp [cleanedSamples, cleanExpiredData, CongestionProcessor.init])⟩

/-! ## C3/C10 groundwork: the frontier and one neighbor relaxation -/

theorem heapMinFrom_mem (m : ℝ × String) (l : List (ℝ × String)) :
    heapMinFrom m l ∈ m :: l := by
  induction l generalizing m with
  | nil => simp [heapMinFrom]
  | cons e rest ih =>
    rw [heapMinFrom]
    have h := ih (pairMin m e)
    have hp : pairMin m e = e ∨ pairMin m e = m := by
      unfold pairMin
      by_cases hlt : e.1 < m.1 ∨ (e.1 = m.1 ∧ e.2 < m.2)
      · rw [if_pos hlt]
        exact Or.inl rfl
      · rw [if_neg hlt]
        exact Or.inr rfl
    rcases List.mem_cons.mp h with h1 | h1
    · rcases hp with h2 | h2 <;> rw [h2] at h1 ⊢ <;> simp [h1]
    · exact List.mem_cons_of_mem m (List.mem_cons_of_mem e h1)

theorem removeFirst_subset {l : List (ℝ × String)} {m x : ℝ × String}
    (h : x ∈ removeFirst l m) : x ∈ l := by
  induction l with
  | nil => simp [removeFirst] at h
  | cons e rest ih =>
    rw [removeFirst] at h
    by_cases he : e = m
    · rw [if_pos he] at h
      exact List.mem_cons_of_mem e h
    · rw [if_neg he] at h
      rcases List.mem_cons.mp h with h1 | h1
      · simp [h1]
      · exact List.mem_cons_of_mem e (ih h1)

theorem removeFirst_mem_or {l : List (ℝ × String)} {m x : ℝ × String}
    (h : x ∈ l) : x ∈ removeFirst l m ∨ x = m := by
  induction l with
  | nil => simp at h
  | cons e rest ih =>
    rw [removeFirst]
    by_cases he : e = m
    · rw [if_pos he]
      rcases List.mem_cons.mp h with h1 | h1
      · right; rw [h1, he]
      · left; exact h1
    · rw [if_neg he]
      rcases List.mem_cons.mp h with h1 | h1
      · left; simp [h1]
      · rcases ih h1 with h2 | h2
        · left; exact List.mem_cons_of_mem e h2
        · right; exact h2

theorem removeFirst_length {l : List (ℝ × String)} {m : ℝ × String}
    (h : m ∈ l) : (removeFirst l m).length + 1 = l.length := by
  induction l with
  | nil => simp at h
  | cons e rest ih =>
    rw [removeFirst]
    by_cases he : e = m
    · rw [if_pos he]
      simp
    · rw [if_neg he]
      have hm : m ∈ rest := by
        rcases List.mem_cons.mp h with h1 | h1
        · exact absurd h1.symm he
        · exact h1
      simp only [List.length_cons, ih hm]

theorem congestionFactor_pos (cong : String × String → Option ℝ)
    (hcong : NonnegSnapshot cong) (a b : String) :
    0 < congestionFactor cong a b := by
  cases h1 : cong (a, b) with
  | some r =>
    have hr := hcong a b r h1
    have he : congestionFactor cong a b = 1 + r * 2 := by
      simp [congestionFactor, h1]
    rw [he]
    linarith
  | none =>
    cases h2 : cong (b, a) with
    | some r =>
      have hr := hcong b a r h2
      have he : congestionFactor cong a b = 1 + r * 2 := by
        simp [congestionFactor, h1, h2]
      rw [he]
      linarith
    | none =>
      have he : congestionFactor cong a b = 1 := by
        simp [congestionFactor, h1, h2]
      rw [he]
      norm_num

theorem edgeCost_pos (cong : String × String → Option ℝ)
    (hcong : NonnegSnapshot cong) (a b : String) (base : ℝ) (hbase : 0 < base) :
    0 < edgeCost cong a b base :=
  mul_pos hbase (congestionFactor_pos cong hcong a b)

/-- Trichotomy for one neighbor relaxation: either the state is unchanged
(closed neighbor, or no improvement), or the improvement branch pushed the
neighbor, or the heuristic lookup raised. -/
theorem relaxNeighbor_cases (g : BuildingGraph) (cong : String × String → Option ℝ)
    (end_id current : String) (gCur : ℝ) (st : AStarState) (nb : String × ℝ) :
    (relaxNeighbor g cong end_id current gCur st nb = some st ∧
      (nb.1 ∈ st.closedSet ∨ ∃ oldG, alookup st.gScore nb.1 = some oldG ∧
        ¬ gCur + edgeCost cong current nb.1 nb.2 < oldG)) ∨
    (∃ n1 n2, alookup g.nodes nb.1 = some n1 ∧ alookup g.nodes end_id = some n2 ∧
      nb.1 ∉ st.closedSet ∧
      (alookup st.gScore nb.1 = none ∨ ∃ oldG, alookup st.gScore nb.1 = some oldG ∧
        gCur + edgeCost cong current nb.1 nb.2 < oldG) ∧
      relaxNeighbor g cong end_id current gCur st nb =
        some (AStarState.mk
          (st.openList ++ [(gCur + edgeCost cong current nb.1 nb.2 + heuristicOf n1 n2, nb.1)])
          st.closedSet
          (ainsert st.gScore nb.1 (gCur + edgeCost cong current nb.1 nb.2))
          (ainsert st.fScore nb.1 (gCur + edgeCost cong current nb.1 nb.2 + heuristicOf n1 n2))
          (ainsert st.cameFrom nb.1 current))) ∨
    (relaxNeighbor g cong end_id current gCur st nb = none ∧ nb.1 ∉ st.closedSet ∧
      (alookup g.nodes nb.1 = none ∨ alookup g.nodes end_id = none)) := by
  by_cases hc : nb.1 ∈ st.closedSet
  · exact Or.inl ⟨by simp [relaxNeighbor, hc], Or.inl hc⟩
  · cases hg : alookup st.gScore nb.1 with
    | some oldG =>
      by_cases himp : gCur + edgeCost cong current nb.1 nb.2 < oldG
      · cases hn1 : alookup g.nodes nb.1 with
        | none =>
          refine Or.inr (Or.inr ⟨?_, hc, Or.inl rfl⟩)
          simp [relaxNeighbor, hc, hg, himp, hn1]
        | some n1 =>
          cases hn2 : alookup g.nodes end_id with
          | none =>
            refine Or.inr (Or.inr ⟨?_, hc, Or.inr rfl⟩)
            simp [relaxNeighbor, hc, hg, himp, hn1, hn2]
          | some n2 =>
            refine Or.inr (Or.inl ⟨n1, n2, rfl, rfl, hc,
              Or.inr ⟨oldG, rfl, himp⟩, ?_⟩)
            simp [relaxNeighbor, hc, hg, himp, hn1, hn2]
      · refine Or.inl ⟨?_, Or.inr ⟨oldG, rfl, himp⟩⟩
        simp [relaxNeighbor, hc, hg, himp]
    | none =>
      cases hn1 : alookup g.nodes nb.1 with
      | none =>
        refine Or.inr (Or.inr ⟨?_, hc, Or.inl rfl⟩)
        simp [relaxNeighbor, hc, hg, hn1]
      | some n1 =>
        cases hn2 : alookup g.nodes end_id with
        | none =>
          refine Or.inr (Or.inr ⟨?_, hc, Or.inr rfl⟩)
          simp [relaxNeighbor, hc, hg, hn1, hn2]
        | some n2 =>
          refine Or.inr (Or.inl ⟨n1, n2, rfl, rfl, hc, Or.inl rfl, ?_⟩)
          simp [relaxNeighbor, hc, hg, hn1, hn2]

/-- The mid-relaxation invariant survives pushing one improved neighbor. -/
theorem MidInv_push (g : BuildingGraph) (cong : String × String → Option ℝ)
    (start_id end_id current : String) (st : AStarState) (gCur tent : ℝ)
    (node : Node) (hnode : alookup g.nodes current = some node)
    (nb : String × ℝ) (hnb : nb ∈ node.neighbors)
    (n1 : Node) (hn1 : alookup g.nodes nb.1 = some n1)
    (hnc : nb.1 ∉ st.closedSet)
    (himp : alookup st.gScore nb.1 = none ∨
      ∃ oldG, alookup st.gScore nb.1 = some oldG ∧ tent < oldG)
    (hmid : MidInv g start_id end_id cong current st)
    (hgcur : alookup st.gScore current = some gCur) (f : ℝ) :
    MidInv g start_id end_id cong current
      (AStarState.mk (st.openList ++ [(f, nb.1)]) st.closedSet
        (ainsert st.gScore nb.1 tent) (ainsert st.fScore nb.1 f)
        (ainsert st.cameFrom nb.1 current)) := by
  refine ⟨?_, ?_, ?_, ?_, ?_, ?_, ?_, ?_, ?_, ?_, ?_, hmid.end_not_closed,
    hmid.cur_closed⟩
  · intro pr hpr
    rcases List.mem_append.mp hpr with h1 | h1
    · exact (alookup_ainsert_isSome _ _ _ _).mpr (Or.inl (hmid.open_g pr h1))
    · rw [List.mem_singleton.mp h1]
      exact (alookup_ainsert_isSome _ _ _ _).mpr (Or.inr rfl)
  · intro pr hpr
    rcases List.mem_append.mp hpr with h1 | h1
    · exact hmid.open_nodes pr h1
    · rw [List.mem_singleton.mp h1]
      simp [hn1]
  · intro c hc
    exact (alookup_ainsert_isSome _ _ _ _).mpr (Or.inl (hmid.closed_g c hc))
  · exact hmid.closed_nodes
  · intro k hk
    rcases (alookup_ainsert_isSome _ _ _ _).mp hk with h1 | h1
    · exact hmid.reach_g k h1
    · subst h1
      exact Relation.ReflTransGen.tail
        (hmid.reach_g current (by simp [hgcur]))
        ⟨node, hnode, List.mem_map.mpr ⟨nb, hnb, rfl⟩⟩
  · intro k hk
    rcases (alookup_ainsert_isSome _ _ _ _).mp hk with h1 | h1
    · rcases hmid.g_cover k h1 with h2 | ⟨pr, hpr, hpr2⟩
      · exact Or.inl h2
      · exact Or.inr ⟨pr, List.mem_append.mpr (Or.inl hpr), hpr2⟩
    · subst h1
      exact Or.inr ⟨(f, nb.1), List.mem_append.mpr (Or.inr (by simp)), rfl⟩
  · exact (alookup_ainsert_isSome _ _ _ _).mpr (Or.inl hmid.start_g)
  · intro c hc hne n hn pr hpr
    exact (alookup_ainsert_isSome _ _ _ _).mpr
      (Or.inl (hmid.closure2 c hc hne n hn pr hpr))
  · intro c hc hne n hn pr hpr hprnc gc gn hgc hgn
    have hcnb : c ≠ nb.1 := fun h => hnc (h ▸ hc)
    rw [alookup_ainsert_ne _ _ _ _ hcnb] at hgc
    by_cases hprnb : pr.1 = nb.1
    · rw [hprnb, alookup_ainsert_self] at hgn
      injection hgn with hgn
      subst hgn
      have hold := hmid.closure2 c hc hne n hn pr hpr
      obtain ⟨oldG0, hold0⟩ := Option.isSome_iff_exists.mp hold
      rcases himp with hfresh | ⟨oldG, hsome, hlt⟩
      · rw [hprnb] at hold0
        rw [hold0] at hfresh
        exact absurd hfresh (by simp)
      · rw [hprnb] at hold0
        rw [hsome] at hold0
        injection hold0 with hq
        have hb := hmid.relaxbound2 c hc hne n hn pr hpr hprnc gc oldG0 hgc
          (by rw [hprnb, hsome, hq])
        exact le_trans (le_of_lt (hq ▸ hlt)) hb
    · rw [alookup_ainsert_ne _ _ _ _ hprnb] at hgn
      exact hmid.relaxbound2 c hc hne n hn pr hpr hprnc gc gn hgc hgn
  · intro nid mid hcame
    by_cases hnid : nid = nb.1
    · rw [hnid, alookup_ainsert_self] at hcame
      injection hcame with hcame
      subst hcame
      constructor
      · rw [hnid]
        exact (alookup_ainsert_isSome _ _ _ _).mpr (Or.inr rfl)
      · exact (alookup_ainsert_isSome _ _ _ _).mpr (Or.inl (by simp [hgcur]))
    · rw [alookup_ainsert_ne _ _ _ _ hnid] at hcame
      obtain ⟨h1, h2⟩ := hmid.came_g nid mid hcame
      exact ⟨(alookup_ainsert_isSome _ _ _ _).mpr (Or.inl h1),
        (alookup_ainsert_isSome _ _ _ _).mpr (Or.inl h2)⟩
  · intro k hk hks
    by_cases hknb : k = nb.1
    · rw [hknb, alookup_ainsert_self]
      simp
    · rcases (alookup_ainsert_isSome _ _ _ _).mp hk with h1 | h1
      · rw [alookup_ainsert_ne _ _ _ _ hknb]
        exact hmid.came_cover k h1 hks
      · exact absurd h1 hknb

/-- Pushing an improved neighbor preserves the strict decrease of `g_score`
along predecessor links, provided the new tentative score exceeds the
score of the expanded node. -/
theorem CameDecreasing_push (st : AStarState) (gCur tent : ℝ)
    (current nb1 : String)
    (hcur_closed : current ∈ st.closedSet) (hnc : nb1 ∉ st.closedSet)
    (hgcur : alookup st.gScore current = some gCur)
    (himp : alookup st.gScore nb1 = none ∨
      ∃ oldG, alookup st.gScore nb1 = some oldG ∧ tent < oldG)
    (hlt : gCur < tent)
    (hcd : CameDecreasing st) (op : List (ℝ × String)) (fS : List (String × ℝ)) :
    CameDecreasing (AStarState.mk op st.closedSet
      (ainsert st.gScore nb1 tent) fS (ainsert st.cameFrom nb1 current)) := by
  intro nid mid hcame
  simp only at hcame ⊢
  have hcurnb : current ≠ nb1 := fun h => hnc (h ▸ hcur_closed)
  by_cases hnid : nid = nb1
  · rw [hnid, alookup_ainsert_self] at hcame
    injection hcame with hcame
    subst hcame
    refine ⟨tent, gCur, ?_, ?_, hlt⟩
    · rw [hnid]
      exact alookup_ainsert_self _ _ _
    · rw [alookup_ainsert_ne _ _ _ _ hcurnb]
      exact hgcur
  · rw [alookup_ainsert_ne _ _ _ _ hnid] at hcame
    obtain ⟨gn, gm, hgn, hgm, hlt2⟩ := hcd nid mid hcame
    by_cases hmid2 : mid = nb1
    · subst hmid2
      rcases himp with hfresh | ⟨oldG, hsome, hlt3⟩
      · rw [hgm] at hfresh
        exact absurd hfresh (by simp)
      · refine ⟨gn, tent, ?_, alookup_ainsert_self _ _ _, ?_⟩
        · rw [alookup_ainsert_ne _ _ _ _ hnid]
          exact hgn
        · rw [hsome] at hgm
          injection hgm with hq
          exact lt_trans (hq ▸ hlt3) hlt2
    · refine ⟨gn, gm, ?_, ?_, hlt2⟩
      · rw [alookup_ainsert_ne _ _ _ _ hnid]
        exact hgn
      · rw [alookup_ainsert_ne _ _ _ _ hmid2]
        exact hgm

/-- Behaviour of the neighbor-relaxation fold.  Starting from the
mid-relaxation invariant it either raises (only when a neighbor or the goal
has no node record) or produces a state that keeps the invariant, the closed
set, and the scores of closed nodes; scores never increase; every processed
neighbor ends up discovered and, if open, bounded by
`g_score[current] + edgeCost`; the frontier grows by at most one entry per
neighbor; and with positive distances and a non-negative snapshot the
predecessor links keep strictly decreasing scores. -/
theorem relaxAll_spec (g : BuildingGraph) (cong : String × String → Option ℝ)
    (start_id end_id current : String) (gCur : ℝ) (node : Node)
    (hnode : alookup g.nodes current = some node) :
    ∀ (lst : List (String × ℝ)) (st : AStarState),
      (∀ pr ∈ lst, pr ∈ node.neighbors) →
      MidInv g start_id end_id cong current st →
      alookup st.gScore current = some gCur →
      ((∀ pr ∈ lst, (alookup g.nodes pr.1).isSome) →
        (alookup g.nodes end_id).isSome →
        relaxAll g cong end_id current gCur lst st ≠ none) ∧
      (∀ st2, relaxAll g cong end_id current gCur lst st = some st2 →
        MidInv g start_id end_id cong current st2 ∧
        st2.closedSet = st.closedSet ∧
        (∀ k, k ∈ st.closedSet → alookup st2.gScore k = alookup st.gScore k) ∧
        (∀ k v1, alookup st.gScore k = some v1 →
          ∃ v2, alookup st2.gScore k = some v2 ∧ v2 ≤ v1) ∧
        (∀ pr ∈ lst, (alookup st2.gScore pr.1).isSome) ∧
        (∀ pr ∈ lst, pr.1 ∉ st.closedSet → ∀ gn,
          alookup st2.gScore pr.1 = some gn →
          gn ≤ gCur + edgeCost cong current pr.1 pr.2) ∧
        st2.openList.length ≤ st.openList.length + lst.length ∧
        ((∀ pr ∈ lst, 0 < pr.2) → NonnegSnapshot cong →
          CameDecreasing st → CameDecreasing st2)) := by
  intro lst
  induction lst with
  | nil =>
    intro st hsub hmid hgcur
    constructor
    · intro _ _
      simp [relaxAll]
    · intro st2 h2
      simp only [relaxAll, Option.some.injEq] at h2
      subst h2
      refine ⟨hmid, rfl, fun k _ => rfl, fun k v1 h => ⟨v1, h, le_refl v1⟩,
        by simp, by simp, by simp, fun _ _ hcd => hcd⟩
  | cons nb rest ih =>
    intro st hsub hmid hgcur
    have hsub2 : ∀ pr ∈ rest, pr ∈ node.neighbors :=
      fun pr h => hsub pr (List.mem_cons_of_mem nb h)
    rcases relaxNeighbor_cases g cong end_id current gCur st nb with
      ⟨heq, hwhy⟩ | ⟨n1, n2, hn1, hn2, hnc, himp, heq⟩ | ⟨heq, hnc, hbad⟩
    · -- the neighbor relaxation left the state unchanged
      have hrw : relaxAll g cong end_id current gCur (nb :: rest) st =
          relaxAll g cong end_id current gCur rest st := by
        simp only [relaxAll, heq]
      obtain ⟨ihn, ihs⟩ := ih st hsub2 hmid hgcur
      rw [hrw]
      constructor
      · intro hnodes hend
        exact ihn (fun pr h => hnodes pr (List.mem_cons_of_mem nb h)) hend
      · intro st2 h2
        obtain ⟨imid, iclosed, ifrozen, idec, isome, ibound, ilen, icame⟩ :=
          ihs st2 h2
        refine ⟨imid, iclosed, ifrozen, idec, ?_, ?_, ?_, ?_⟩
        · intro pr hpr
          rcases List.mem_cons.mp hpr with h1 | h1
          · subst h1
            rcases hwhy with hcl | ⟨oldG, hold, _⟩
            · obtain ⟨v0, hv0⟩ := Option.isSome_iff_exists.mp
                (hmid.closed_g pr.1 hcl)
              obtain ⟨v2, hv2, _⟩ := idec pr.1 v0 hv0
              simp [hv2]
            · obtain ⟨v2, hv2, _⟩ := idec pr.1 oldG hold
              simp [hv2]
          · exact isome pr h1
        · intro pr hpr hprnc gn hgn
          rcases List.mem_cons.mp hpr with h1 | h1
          · subst h1
            rcases hwhy with hcl | ⟨oldG, hold, hnl⟩
            · exact absurd hcl hprnc
            · obtain ⟨v2, hv2, hle⟩ := idec pr.1 oldG hold
              rw [hgn] at hv2
              injection hv2 with hv2
              rw [hv2]
              exact le_trans hle (le_of_not_lt hnl)
          · exact ibound pr h1 hprnc gn hgn
        · simp only [List.length_cons]
          omega
        · intro hposl hcong hcd
          exact icame (fun pr h => hposl pr (List.mem_cons_of_mem nb h)) hcong hcd
    · -- the neighbor was pushed with the improved tentative score
      set tent := gCur + edgeCost cong current nb.1 nb.2 with htent
      set st1 := AStarState.mk
        (st.openList ++ [(tent + heuristicOf n1 n2, nb.1)]) st.closedSet
        (ainsert st.gScore nb.1 tent)
        (ainsert st.fScore nb.1 (tent + heuristicOf n1 n2))
        (ainsert st.cameFrom nb.1 current) with hst1
      have hrw : relaxAll g cong end_id current gCur (nb :: rest) st =
          relaxAll g cong end_id current gCur rest st1 := by
        simp only [relaxAll, heq]
      have hcurnb : current ≠ nb.1 := fun h => hnc (h ▸ hmid.cur_closed)
      have hmid1 : MidInv g start_id end_id cong current st1 :=
        MidInv_push g cong start_id end_id current st gCur tent node hnode nb
          (hsub nb (List.mem_cons_self nb rest)) n1 hn1 hnc himp hmid hgcur
          (tent + heuristicOf n1 n2)
      have hgcur1 : alookup st1.gScore current = some gCur := by
        rw [hst1]
        simp only []
        rw [alookup_ainsert_ne _ _ _ _ hcurnb]
        exact hgcur
      obtain ⟨ihn, ihs⟩ := ih st1 hsub2 hmid1 hgcur1
      rw [hrw]
      constructor
      · intro hnodes hend
        exact ihn (fun pr h => hnodes pr (List.mem_cons_of_mem nb h)) hend
      · intro st2 h2
        obtain ⟨imid, iclosed, ifrozen, idec, isome, ibound, ilen, icame⟩ :=
          ihs st2 h2
        have hg1self : alookup st1.gScore nb.1 = some tent := by
          rw [hst1]
          simp only []
          exact alookup_ainsert_self _ _ _
        refine ⟨imid, iclosed, ?_, ?_, ?_, ?_, ?_, ?_⟩
        · intro k hk
          have hknb : k ≠ nb.1 := fun h => hnc (h ▸ hk)
          rw [ifrozen k hk, hst1]
          simp only []
          rw [alookup_ainsert_ne _ _ _ _ hknb]
        · intro k v1 hv1
          by_cases hknb : k = nb.1
          · subst hknb
            rcases himp with hfresh | ⟨oldG, hold, hlt⟩
            · rw [hv1] at hfresh
              exact absurd hfresh (by simp)
            · rw [hold] at hv1
              injection hv1 with hv1
              obtain ⟨v2, hv2, hle⟩ := idec nb.1 tent hg1self
              exact ⟨v2, hv2, le_trans hle (le_of_lt (hv1 ▸ hlt))⟩
          · have hv1m : alookup st1.gScore k = some v1 := by
              rw [hst1]
              simp only []
              rw [alookup_ainsert_ne _ _ _ _ hknb]
              exact hv1
            exact idec k v1 hv1m
        · intro pr hpr
          rcases List.mem_cons.mp hpr with h1 | h1
          · subst h1
            obtain ⟨v2, hv2, _⟩ := idec pr.1 tent hg1self
            simp [hv2]
          · exact isome pr h1
        · intro pr hpr hprnc gn hgn
          rcases List.mem_cons.mp hpr with h1 | h1
          · subst h1
            obtain ⟨v2, hv2, hle⟩ := idec pr.1 tent hg1self
            rw [hgn] at hv2
            injection hv2 with hv2
            rw [hv2]
            exact hle
          · exact ibound pr h1 hprnc gn hgn
        · have hlen1 : st1.openList.length = st.openList.length + 1 := by
            rw [hst1]
            simp
          simp only [List.length_cons]
          omega
        · intro hposl hcong hcd
          have hcost : 0 < edgeCost cong current nb.1 nb.2 :=
            edgeCost_pos cong hcong current nb.1 nb.2
              (hposl nb (List.mem_cons_self nb rest))
          have hcd1 : CameDecreasing st1 :=
            CameDecreasing_push st gCur tent current nb.1 hmid.cur_closed hnc
              hgcur himp (by rw [htent]; linarith) hcd
              (st.openList ++ [(tent + heuristicOf n1 n2, nb.1)])
              (ainsert st.fScore nb.1 (tent + heuristicOf n1 n2))
          exact icame (fun pr h => hposl pr (List.mem_cons_of_mem nb h)) hcong hcd1
    · -- the heuristic lookup raised
      have hrw : relaxAll g cong end_id current gCur (nb :: rest) st = none := by
        simp only [relaxAll, heq]
      rw [hrw]
      constructor
      · intro hnodes hend
        exfalso
        rcases hbad with hb | hb
        · have := hnodes nb (List.mem_cons_self nb rest)
          rw [hb] at this
          simp at this
        · rw [hb] at hend
          simp at hend
      · intro st2 h2
        simp at h2

/-- Re-expanding an already closed node relaxes nothing: every neighbor is
closed or already has a score no worse than the tentative one. -/
theorem relaxAll_noop (g : BuildingGraph) (cong : String × String → Option ℝ)
    (end_id current : String) (gCur : ℝ) :
    ∀ (lst : List (String × ℝ)) (st : AStarState),
      (∀ pr ∈ lst, pr.1 ∈ st.closedSet ∨ ∃ gn, alookup st.gScore pr.1 = some gn ∧
        gn ≤ gCur + edgeCost cong current pr.1 pr.2) →
      relaxAll g cong end_id current gCur lst st = some st := by
  intro lst
  induction lst with
  | nil =>
    intro st _
    simp [relaxAll]
  | cons nb rest ih =>
    intro st h
    have hid : relaxNeighbor g cong end_id current gCur st nb = some st := by
      rcases h nb (List.mem_cons_self nb rest) with hcl | ⟨gn, hgn, hle⟩
      · simp [relaxNeighbor, hcl]
      · by_cases hcl : nb.1 ∈ st.closedSet
        · simp [relaxNeighbor, hcl]
        · have hnl : ¬ gCur + edgeCost cong current nb.1 nb.2 < gn := not_lt.mpr hle
          simp [relaxNeighbor, hcl, hgn, hnl]
    simp only [relaxAll, hid]
    exact ih st (fun pr hpr => h pr (List.mem_cons_of_mem nb hpr))

/-- Closing a popped non-goal node turns the search invariant into the
mid-relaxation invariant. -/
theorem MidInv_of_close (g : BuildingGraph) (start_id end_id : String)
    (cong : String × String → Option ℝ) (st : AStarState) (m : ℝ × String)
    (hm : m ∈ st.openList) (hinv : AStarInv g start_id end_id cong st)
    (hne : m.2 ≠ end_id) (openNew : List (ℝ × String))
    (hsub : ∀ pr ∈ openNew, pr ∈ st.openList)
    (hcov : ∀ pr ∈ st.openList, pr ∈ openNew ∨ pr = m) :
    MidInv g start_id end_id cong m.2
      (AStarState.mk openNew (insert m.2 st.closedSet) st.gScore st.fScore
        st.cameFrom) := by
  refine ⟨?_, ?_, ?_, ?_, hinv.reach_g, ?_, hinv.start_g, ?_, ?_, hinv.came_g,
    hinv.came_cover, ?_, Finset.mem_insert_self m.2 st.closedSet⟩
  · intro pr hpr
    exact hinv.open_g pr (hsub pr hpr)
  · intro pr hpr
    exact hinv.open_nodes pr (hsub pr hpr)
  · intro c hc
    rcases Finset.mem_insert.mp hc with h1 | h1
    · subst h1
      exact hinv.open_g m hm
    · exact hinv.closed_g c h1
  · intro c hc
    rcases Finset.mem_insert.mp hc with h1 | h1
    · subst h1
      exact hinv.open_nodes m hm
    · exact hinv.closed_nodes c h1
  · intro k hk
    rcases hinv.g_cover k hk with h1 | ⟨pr, hpr, hpr2⟩
    · exact Or.inl (Finset.mem_insert_of_mem h1)
    · rcases hcov pr hpr with h2 | h2
      · exact Or.inr ⟨pr, h2, hpr2⟩
      · subst h2
        rw [← hpr2]
        exact Or.inl (Finset.mem_insert_self _ _)
  · intro c hc hcne n hn pr hpr
    rcases Finset.mem_insert.mp hc with h1 | h1
    · exact absurd h1 hcne
    · exact hinv.closure c h1 n hn pr hpr
  · intro c hc hcne n hn pr hpr hprnc gc gn hgc hgn
    rcases Finset.mem_insert.mp hc with h1 | h1
    · exact absurd h1 hcne
    · exact hinv.relaxbound c h1 n hn pr hpr
        (fun h2 => hprnc (Finset.mem_insert_of_mem h2)) gc gn hgc hgn
  · intro hc
    rcases Finset.mem_insert.mp hc with h1 | h1
    · exact hne h1.symm
    · exact hinv.end_not_closed h1

/-- One non-goal iteration of the search loop: under the invariant it either
raises a `KeyError` — which requires a dangling neighbor reference or a
missing goal record — or steps to a state that keeps the invariant and
strictly decreases the termination measure (a re-expanded closed node relaxes
nothing, while a fresh node enlarges the closed set). -/
theorem astarLoop_iteration (g : BuildingGraph) (start_id end_id : String)
    (cong : String × String → Option ℝ) (st : AStarState) (e : ℝ × String)
    (rest : List (ℝ × String)) (fuel : ℕ)
    (hopen : st.openList = e :: rest)
    (hinv : AStarInv g start_id end_id cong st)
    (hne : (heapMinFrom e rest).2 ≠ end_id) :
    (astarLoop g end_id cong (fuel + 1) st = .keyError ∧
      ¬ (NeighborClosed g ∧ (alookup g.nodes end_id).isSome)) ∨
    ∃ st2, astarLoop g end_id cong (fuel + 1) st = astarLoop g end_id cong fuel st2 ∧
      AStarInv g start_id end_id cong st2 ∧
      loopMeasure g st2 < loopMeasure g st ∧
      (CameDecreasing st → PositiveDistances g → NonnegSnapshot cong →
        CameDecreasing st2) := by
  set m := heapMinFrom e rest with hmdef
  have hm : m ∈ st.openList := by
    rw [hopen]
    exact heapMinFrom_mem e rest
  obtain ⟨node, hcur⟩ := Option.isSome_iff_exists.mp (hinv.open_nodes m hm)
  obtain ⟨gCur, hgc⟩ := Option.isSome_iff_exists.mp (hinv.open_g m hm)
  set st1 := AStarState.mk (removeFirst (e :: rest) m) (insert m.2 st.closedSet)
    st.gScore st.fScore st.cameFrom with hst1
  have hunfold : astarLoop g end_id cong (fuel + 1) st =
      (match relaxAll g cong end_id m.2 gCur node.neighbors st1 with
       | none => AStarResult.keyError
       | some stx => astarLoop g end_id cong fuel stx) := by
    conv_lhs => rw [astarLoop]
    rw [hopen]
    simp only [hne, if_false, hcur, hgc]
  have hmid1 : MidInv g start_id end_id cong m.2 st1 :=
    MidInv_of_close g start_id end_id cong st m hm hinv hne
      (removeFirst (e :: rest) m)
      (fun pr hpr => by rw [hopen]; exact removeFirst_subset hpr)
      (fun pr hpr => removeFirst_mem_or (by rw [← hopen]; exact hpr))
  obtain ⟨ihn, ihs⟩ := relaxAll_spec g cong start_id end_id m.2 gCur node hcur
    node.neighbors st1 (fun pr h => h) hmid1 hgc
  cases hr : relaxAll g cong end_id m.2 gCur node.neighbors st1 with
  | none =>
    left
    constructor
    · rw [hunfold, hr]
    · rintro ⟨hclosed, hend⟩
      exact ihn (fun pr hpr => hclosed m.2 node hcur pr hpr) hend hr
  | some st2 =>
    right
    obtain ⟨imid, iclosed, ifrozen, idec, isome, ibound, ilen, icame⟩ := ihs st2 hr
    refine ⟨st2, by rw [hunfold, hr], ?_, ?_, ?_⟩
    · refine ⟨imid.open_g, imid.open_nodes, imid.closed_g, imid.closed_nodes,
        imid.reach_g, imid.g_cover, imid.start_g, ?_, ?_, imid.came_g,
        imid.came_cover, imid.end_not_closed⟩
      · intro c hc n hn pr hpr
        by_cases hcm : c = m.2
        · subst hcm
          rw [hcur] at hn
          injection hn with hn
          subst hn
          exact isome pr hpr
        · exact imid.closure2 c hc hcm n hn pr hpr
      · intro c hc n hn pr hpr hprnc gc gn hgc2 hgn2
        by_cases hcm : c = m.2
        · subst hcm
          rw [hcur] at hn
          injection hn with hn
          subst hn
          have hfro : alookup st2.gScore m.2 = some gCur := by
            rw [ifrozen m.2 (Finset.mem_insert_self m.2 st.closedSet)]
            exact hgc
          rw [hfro] at hgc2
          injection hgc2 with hgc2
          subst hgc2
          exact ibound pr hpr (by rw [iclosed] at hprnc; exact hprnc) gn hgn2
        · exact imid.relaxbound2 c hc hcm n hn pr hpr hprnc gc gn hgc2 hgn2
    · by_cases hmem : m.2 ∈ st.closedSet
      · have hnoop : relaxAll g cong end_id m.2 gCur node.neighbors st1 = some st1 := by
          apply relaxAll_noop
          intro pr hpr
          by_cases hprc : pr.1 ∈ st.closedSet
          · exact Or.inl (Finset.mem_insert_of_mem hprc)
          · obtain ⟨gn, hgn⟩ := Option.isSome_iff_exists.mp
              (hinv.closure m.2 hmem node hcur pr hpr)
            exact Or.inr ⟨gn, hgn,
              hinv.relaxbound m.2 hmem node hcur pr hpr hprc gCur gn hgc hgn⟩
        have hst2 : st2 = st1 := by
          rw [hnoop] at hr
          injection hr with hr
          exact hr.symm
        have hceq : st1.closedSet = st.closedSet := by
          rw [hst1]
          exact Finset.insert_eq_self.mpr hmem
        have hlen1 : st1.openList.length + 1 = st.openList.length := by
          rw [hst1, hopen]
          exact removeFirst_length (by rw [← hopen]; exact hm)
        rw [hst2]
        unfold loopMeasure
        rw [hceq]
        omega
      · have hsubK : ∀ c ∈ insert m.2 st.closedSet, c ∈ graphKeys g := by
          intro c hc
          have hcs : (alookup g.nodes c).isSome := by
            rcases Finset.mem_insert.mp hc with h1 | h1
            · rw [h1]
              simp [hcur]
            · exact hinv.closed_nodes c h1
          unfold graphKeys
          rw [List.mem_toFinset]
          exact (alookup_isSome_iff g.nodes c).mp hcs
        have hcards : st2.closedSet.card = st.closedSet.card + 1 := by
          rw [iclosed, hst1]
          exact Finset.card_insert_of_not_mem hmem
        have hKC : st.closedSet.card + 1 ≤ (graphKeys g).card := by
          calc st.closedSet.card + 1 = (insert m.2 st.closedSet).card :=
                (Finset.card_insert_of_not_mem hmem).symm
            _ ≤ (graphKeys g).card :=
                Finset.card_le_card (fun c hc => hsubK c hc)
        have hdeg : node.neighbors.length ≤ maxDegree g :=
          foldr_max_le_of_mem
            (List.mem_map.mpr ⟨(m.2, node), alookup_mem hcur, rfl⟩)
        have hlen1 : st1.openList.length + 1 = st.openList.length := by
          rw [hst1, hopen]
          exact removeFirst_length (by rw [← hopen]; exact hm)
        unfold loopMeasure
        rw [hcards]
        set X := ((graphKeys g).card - (st.closedSet.card + 1)) * (maxDegree g + 1)
          with hX
        have hsplit : ((graphKeys g).card - st.closedSet.card) * (maxDegree g + 1)
            = X + (maxDegree g + 1) := by
          rw [hX]
          have h9 : (graphKeys g).card - st.closedSet.card =
              ((graphKeys g).card - (st.closedSet.card + 1)) + 1 := by omega
          rw [h9]
          ring
        rw [hsplit]
        omega
    · intro hcd hpos hcong
      have hcd1 : CameDecreasing st1 := hcd
      exact icame (fun pr hpr => hpos m.2 node hcur pr hpr) hcong hcd1

/-- A successful reconstruction starts at the queried node (and so is never
empty). -/
theorem reconstructChain_head (fuel : ℕ) (came : List (String × String))
    (cur : String) (l : List String)
    (h : reconstructChain fuel came cur = some l) : ∃ t, l = cur :: t := by
  cases fuel with
  | zero =>
    unfold reconstructChain at h
    cases hc : alookup came cur with
    | none =>
      rw [hc] at h
      injection h with h
      exact ⟨[], h.symm⟩
    | some prev =>
      rw [hc] at h
      simp at h
  | succ n =>
    unfold reconstructChain at h
    cases hc : alookup came cur with
    | none =>
      rw [hc] at h
      injection h with h
      exact ⟨[], h.symm⟩
    | some prev =>
      rw [hc] at h
      simp only [] at h
      cases hrc : reconstructChain n came prev with
      | none =>
        rw [hrc] at h
        simp at h
      | some l2 =>
        rw [hrc] at h
        injection h with h
        exact ⟨l2, h.symm⟩

/-- Structure of a successful reconstruction when predecessor links strictly
decrease the recorded score: the chain starts at the queried node, its
entries are pairwise distinct with strictly decreasing scores, and it ends at
a discovered node with no predecessor. -/
theorem reconstructChain_props (came : List (String × String))
    (gs : List (String × ℝ))
    (hdec : ∀ nid mid, alookup came nid = some mid →
      ∃ gn gm, alookup gs nid = some gn ∧ alookup gs mid = some gm ∧ gm < gn) :
    ∀ (fuel : ℕ) (cur : String) (gc : ℝ) (l : List String),
      alookup gs cur = some gc →
      reconstructChain fuel came cur = some l →
      l.Nodup ∧ l.head? = some cur ∧
      (∀ x ∈ l, ∃ gx, alookup gs x = some gx ∧ gx ≤ gc) ∧
      (∀ x ∈ l.tail, ∃ gx, alookup gs x = some gx ∧ gx < gc) ∧
      (∃ z, l.getLast? = some z ∧ alookup came z = none ∧
        (alookup gs z).isSome) := by
  intro fuel
  induction fuel with
  | zero =>
    intro cur gc l hgc h
    unfold reconstructChain at h
    cases hc : alookup came cur with
    | none =>
      rw [hc] at h
      injection h with h
      subst h
      refine ⟨by simp, rfl, ?_, by simp, cur, rfl, hc, by simp [hgc]⟩
      intro x hx
      rw [List.mem_singleton.mp hx]
      exact ⟨gc, hgc, le_refl gc⟩
    | some prev =>
      rw [hc] at h
      simp at h
  | succ n ih =>
    intro cur gc l hgc h
    unfold reconstructChain at h
    cases hc : alookup came cur with
    | none =>
      rw [hc] at h
      injection h with h
      subst h
      refine ⟨by simp, rfl, ?_, by simp, cur, rfl, hc, by simp [hgc]⟩
      intro x hx
      rw [List.mem_singleton.mp hx]
      exact ⟨gc, hgc, le_refl gc⟩
    | some prev =>
      rw [hc] at h
      simp only [] at h
      cases hrc : reconstructChain n came prev with
      | none =>
        rw [hrc] at h
        simp at h
      | some l2 =>
        rw [hrc] at h
        injection h with h
        subst h
        obtain ⟨gn, gm, hgn, hgm, hlt⟩ := hdec cur prev hc
        rw [hgc] at hgn
        injection hgn with hgn
        subst hgn
        obtain ⟨nd2, hd2, he2, ht2, z, hz, hzc, hzg⟩ := ih prev gm l2 hgm hrc
        have hcurnot : cur ∉ l2 := by
          intro hmem
          obtain ⟨gx, hgx, hle⟩ := he2 cur hmem
          rw [hgc] at hgx
          injection hgx with hgx
          subst hgx
          exact absurd (lt_of_le_of_lt hle hlt) (lt_irrefl gc)
        obtain ⟨t2, hl2⟩ := reconstructChain_head n came prev l2 hrc
        refine ⟨List.nodup_cons.mpr ⟨hcurnot, nd2⟩, rfl, ?_, ?_, z, ?_, hzc, hzg⟩
        · intro x hx
          rcases List.mem_cons.mp hx with h1 | h1
          · subst h1
            exact ⟨gc, hgc, le_refl gc⟩
          · obtain ⟨gx, hgx, hle⟩ := he2 x h1
            exact ⟨gx, hgx, le_trans hle (le_of_lt hlt)⟩
        · intro x hx
          simp only [List.tail_cons] at hx
          obtain ⟨gx, hgx, hle⟩ := he2 x hx
          exact ⟨gx, hgx, lt_of_le_of_lt hle hlt⟩
        · rw [hl2]
          rw [hl2] at hz
          rw [List.getLast?_cons_cons]
          exact hz

/-- With strictly decreasing predecessor scores, the reconstruction
terminates within any fuel exceeding the number of strictly better keys. -/
theorem reconstructChain_total (came : List (String × String))
    (gs : List (String × ℝ))
    (hdec : ∀ nid mid, alookup came nid = some mid →
      ∃ gn gm, alookup gs nid = some gn ∧ alookup gs mid = some gm ∧ gm < gn) :
    ∀ (fuel : ℕ) (cur : String) (gc : ℝ),
      alookup gs cur = some gc →
      ((came.map Prod.fst).toFinset.filter
        (fun k => ∃ gk, alookup gs k = some gk ∧ gk < gc)).card < fuel →
      (reconstructChain fuel came cur).isSome := by
  intro fuel
  induction fuel with
  | zero =>
    intro cur gc _ hcard
    omega
  | succ n ih =>
    intro cur gc hgc hcard
    cases hc : alookup came cur with
    | none =>
      simp [reconstructChain, hc]
    | some prev =>
      obtain ⟨gn, gm, hgn, hgm, hlt⟩ := hdec cur prev hc
      rw [hgc] at hgn
      injection hgn with hgn
      subst hgn
      have hres : (reconstructChain n came prev).isSome := by
        cases hcp : alookup came prev with
        | none =>
          cases n <;> simp [reconstructChain, hcp]
        | some q =>
          apply ih prev gm hgm
          have hprevmem : prev ∈ (came.map Prod.fst).toFinset.filter
              (fun k => ∃ gk, alookup gs k = some gk ∧ gk < gc) := by
            rw [Finset.mem_filter]
            refine ⟨?_, gm, hgm, hlt⟩
            rw [List.mem_toFinset]
            exact List.mem_map.mpr ⟨(prev, q), alookup_mem hcp, rfl⟩
          have hsubset : (came.map Prod.fst).toFinset.filter
                (fun k => ∃ gk, alookup gs k = some gk ∧ gk < gm) ⊆
              ((came.map Prod.fst).toFinset.filter
                (fun k => ∃ gk, alookup gs k = some gk ∧ gk < gc)).erase prev := by
            intro x hx
            rw [Finset.mem_filter] at hx
            obtain ⟨hx1, gx, hgx, hxlt⟩ := hx
            rw [Finset.mem_erase, Finset.mem_filter]
            refine ⟨?_, hx1, gx, hgx, lt_trans hxlt hlt⟩
            intro hxe
            subst hxe
            rw [hgm] at hgx
            injection hgx with hgx
            subst hgx
            exact absurd hxlt (lt_irrefl gm)
          have hle := Finset.card_le_card hsubset
          rw [Finset.card_erase_of_mem hprevmem] at hle
          have hpos1 : 1 ≤ ((came.map Prod.fst).toFinset.filter
              (fun k => ∃ gk, alookup gs k = some gk ∧ gk < gc)).card :=
            Finset.card_pos.mpr ⟨prev, hprevmem⟩
          omega
      simp only [reconstructChain, hc]
      rw [Option.isSome_map']
      exact hres

/-- Unfolding the loop when the popped entry is the goal. -/
theorem astarLoop_goal_eq (g : BuildingGraph) (end_id : String)
    (cong : String × String → Option ℝ) (fuel : ℕ) (st : AStarState)
    (e : ℝ × String) (rest : List (ℝ × String))
    (hopen : st.openList = e :: rest)
    (hgoal : (heapMinFrom e rest).2 = end_id) :
    astarLoop g end_id cong (fuel + 1) st =
      (match reconstructChain (st.cameFrom.length + 1) st.cameFrom end_id with
       | some chain => AStarResult.path chain.reverse
       | none => AStarResult.reconLoop) := by
  conv_lhs => rw [astarLoop]
  rw [hopen]
  simp only [hgoal, if_true]

/-- With fuel exceeding the loop measure, the search never runs out of
fuel. -/
theorem astarLoop_no_fuelOut (g : BuildingGraph) (start_id end_id : String)
    (cong : String × String → Option ℝ) :
    ∀ (fuel : ℕ) (st : AStarState), AStarInv g start_id end_id cong st →
      loopMeasure g st < fuel →
      astarLoop g end_id cong fuel st ≠ .fuelOut := by
  intro fuel
  induction fuel with
  | zero =>
    intro st _ hmeas
    omega
  | succ n ih =>
    intro st hinv hmeas
    cases hopen : st.openList with
    | nil => simp [astarLoop, hopen]
    | cons e rest =>
      by_cases hgoal : (heapMinFrom e rest).2 = end_id
      · rw [astarLoop_goal_eq g end_id cong n st e rest hopen hgoal]
        cases reconstructChain (st.cameFrom.length + 1) st.cameFrom end_id <;> simp
      · rcases astarLoop_iteration g start_id end_id cong st e rest n hopen hinv
          hgoal with ⟨hkey, _⟩ | ⟨st2, heq, hinv2, hmeas2, _⟩
        · rw [hkey]
          simp
        · rw [heq]
          exact ih st2 hinv2 (by omega)

/-- With a neighbor-closed graph and an existing goal record, the search
never raises a `KeyError`. -/
theorem astarLoop_no_keyError (g : BuildingGraph) (start_id end_id : String)
    (cong : String × String → Option ℝ) (hclosed : NeighborClosed g)
    (hend : (alookup g.nodes end_id).isSome) :
    ∀ (fuel : ℕ) (st : AStarState), AStarInv g start_id end_id cong st →
      astarLoop g end_id cong fuel st ≠ .keyError := by
  intro fuel
  induction fuel with
  | zero =>
    intro st _
    simp [astarLoop]
  | succ n ih =>
    intro st hinv
    cases hopen : st.openList with
    | nil => simp [astarLoop, hopen]
    | cons e rest =>
      by_cases hgoal : (heapMinFrom e rest).2 = end_id
      · rw [astarLoop_goal_eq g end_id cong n st e rest hopen hgoal]
        cases reconstructChain (st.cameFrom.length + 1) st.cameFrom end_id <;> simp
      · rcases astarLoop_iteration g start_id end_id cong st e rest n hopen hinv
          hgoal with ⟨_, hnc⟩ | ⟨st2, heq, hinv2, _, _⟩
        · exact absurd ⟨hclosed, hend⟩ hnc
        · rw [heq]
          exact ih st2 hinv2

/-- With positive distances and a non-negative snapshot, reconstruction
never loops, and every non-empty returned path runs from the start to the
goal without repeating a node. -/
theorem astarLoop_path_props (g : BuildingGraph) (start_id end_id : String)
    (cong : String × String → Option ℝ) (hpos : PositiveDistances g)
    (hcong : NonnegSnapshot cong) :
    ∀ (fuel : ℕ) (st : AStarState), AStarInv g start_id end_id cong st →
      CameDecreasing st →
      astarLoop g end_id cong fuel st ≠ .reconLoop ∧
      (∀ p, astarLoop g end_id cong fuel st = .path p → p ≠ [] →
        p.head? = some start_id ∧ p.getLast? = some end_id ∧ p.Nodup) := by
  intro fuel
  induction fuel with
  | zero =>
    intro st _ _
    constructor
    · simp [astarLoop]
    · intro p hp
      simp [astarLoop] at hp
  | succ n ih =>
    intro st hinv hcd
    cases hopen : st.openList with
    | nil =>
      constructor
      · simp [astarLoop, hopen]
      · intro p hp hpne
        simp only [astarLoop, hopen] at hp
        injection hp with hp
        exact absurd hp.symm hpne
    | cons e rest =>
      by_cases hgoal : (heapMinFrom e rest).2 = end_id
      · have hm : heapMinFrom e rest ∈ st.openList := by
          rw [hopen]
          exact heapMinFrom_mem e rest
        obtain ⟨gc, hgc⟩ := Option.isSome_iff_exists.mp
          (hinv.open_g (heapMinFrom e rest) hm)
        rw [hgoal] at hgc
        have hcard : ((st.cameFrom.map Prod.fst).toFinset.filter
            (fun k => ∃ gk, alookup st.gScore k = some gk ∧ gk < gc)).card <
            st.cameFrom.length + 1 := by
          calc ((st.cameFrom.map Prod.fst).toFinset.filter
              (fun k => ∃ gk, alookup st.gScore k = some gk ∧ gk < gc)).card
              ≤ (st.cameFrom.map Prod.fst).toFinset.card :=
                Finset.card_filter_le _ _
            _ ≤ (st.cameFrom.map Prod.fst).length := List.toFinset_card_le _
            _ = st.cameFrom.length := List.length_map _ _
            _ < st.cameFrom.length + 1 := by omega
        have hsome := reconstructChain_total st.cameFrom st.gScore hcd
          (st.cameFrom.length + 1) end_id gc hgc hcard
        obtain ⟨chain, hchain⟩ := Option.isSome_iff_exists.mp hsome
        rw [astarLoop_goal_eq g end_id cong n st e rest hopen hgoal, hchain]
        constructor
        · simp
        · intro p hp _
          injection hp with hp
          subst hp
          obtain ⟨nd, hd, _, _, z, hz, hzc, hzg⟩ := reconstructChain_props
            st.cameFrom st.gScore hcd (st.cameFrom.length + 1) end_id gc chain
            hgc hchain
          have hzstart : z = start_id := by
            by_contra hzne
            have := hinv.came_cover z hzg hzne
            rw [hzc] at this
            simp at this
          refine ⟨?_, ?_, List.nodup_reverse.mpr nd⟩
          · rw [List.head?_reverse, hz, hzstart]
          · rw [List.getLast?_reverse, hd]
      · rcases astarLoop_iteration g start_id end_id cong st e rest n hopen hinv
          hgoal with ⟨hkey, _⟩ | ⟨st2, heq, hinv2, _, hcd2⟩
        · rw [hkey]
          constructor
          · simp
          · intro p hp
            simp at hp
        · rw [heq]
          exact ih st2 hinv2 (hcd2 hcd hpos hcong)

/-- Whenever the loop returns a path, the path is empty exactly when the
goal is unreachable from the start along neighbor links. -/
theorem astarLoop_empty_iff (g : BuildingGraph) (start_id end_id : String)
    (cong : String × String → Option ℝ) :
    ∀ (fuel : ℕ) (st : AStarState), AStarInv g start_id end_id cong st →
      ∀ p, astarLoop g end_id cong fuel st = .path p →
        (p = [] → ¬ reachableIn g start_id end_id) ∧
        (p ≠ [] → reachableIn g start_id end_id) := by
  intro fuel
  induction fuel with
  | zero =>
    intro st _ p hp
    simp [astarLoop] at hp
  | succ n ih =>
    intro st hinv p hp
    cases hopen : st.openList with
    | nil =>
      rw [astarLoop, hopen] at hp
      simp only [] at hp
      injection hp with hp
      subst hp
      constructor
      · intro _ hreach
        have hclosedall : ∀ k, (alookup st.gScore k).isSome → k ∈ st.closedSet := by
          intro k hk
          rcases hinv.g_cover k hk with h1 | ⟨pr, hpr, _⟩
          · exact h1
          · rw [hopen] at hpr
            simp at hpr
        have hstart : start_id ∈ st.closedSet := hclosedall start_id hinv.start_g
        have hmem : ∀ x, reachableIn g start_id x → x ∈ st.closedSet := by
          intro x hx
          induction hx with
          | refl => exact hstart
          | tail hab hbc ihm =>
            obtain ⟨nd, hnd, hmemb⟩ := hbc
            obtain ⟨pr, hpr, hpr1⟩ := List.mem_map.mp hmemb
            have hsome := hinv.closure _ ihm nd hnd pr hpr
            exact hclosedall _ (hpr1 ▸ hsome)
        exact hinv.end_not_closed (hmem end_id hreach)
      · intro hpne
        exact absurd rfl hpne
    | cons e rest =>
      by_cases hgoal : (heapMinFrom e rest).2 = end_id
      · rw [astarLoop_goal_eq g end_id cong n st e rest hopen hgoal] at hp
        cases hchain : reconstructChain (st.cameFrom.length + 1) st.cameFrom
            end_id with
        | none =>
          rw [hchain] at hp
          simp at hp
        | some chain =>
          rw [hchain] at hp
          injection hp with hp
          subst hp
          obtain ⟨t, hchaineq⟩ := reconstructChain_head _ _ _ _ hchain
          have hpne : chain.reverse ≠ [] := by
            rw [hchaineq]
            simp
          have hm : heapMinFrom e rest ∈ st.openList := by
            rw [hopen]
            exact heapMinFrom_mem e rest
          have hreach := hinv.reach_g (heapMinFrom e rest).2
            (hinv.open_g (heapMinFrom e rest) hm)
          rw [hgoal] at hreach
          exact ⟨fun hp0 => absurd hp0 hpne, fun _ => hreach⟩
      · rcases astarLoop_iteration g start_id end_id cong st e rest n hopen hinv
          hgoal with ⟨hkey, _⟩ | ⟨st2, heq, hinv2, _, _⟩
        · rw [hkey] at hp
          simp at hp
        · rw [heq] at hp
          exact ih st2 hinv2 p hp

/-- The invariant holds for the initial search state built by `find_path`. -/
theorem AStarInv_init (g : BuildingGraph) (start_id end_id : String)
    (cong : String × String → Option ℝ) (sNode eNode : Node)
    (hs : alookup g.nodes start_id = some sNode)
    (_he : alookup g.nodes end_id = some eNode) :
    AStarInv g start_id end_id cong
      (AStarState.mk [(0, start_id)] ∅ [(start_id, 0)]
        [(start_id, heuristicOf sNode eNode)] []) := by
  have hgs : ∀ k, (alookup [(start_id, (0 : ℝ))] k).isSome → k = start_id := by
    intro k hk
    by_cases h : k = start_id
    · exact h
    · rw [alookup_cons, if_neg h] at hk
      simp at hk
  refine ⟨?_, ?_, ?_, ?_, ?_, ?_, by simp, ?_, ?_, ?_, ?_, Finset.not_mem_empty _⟩
  · intro pr hpr
    rw [List.mem_singleton.mp hpr]
    simp
  · intro pr hpr
    rw [List.mem_singleton.mp hpr]
    simp [hs]
  · intro c hc
    exact absurd hc (Finset.not_mem_empty c)
  · intro c hc
    exact absurd hc (Finset.not_mem_empty c)
  · intro k hk
    rw [hgs k hk]
    exact Relation.ReflTransGen.refl
  · intro k hk
    exact Or.inr ⟨(0, start_id), List.mem_singleton.mpr rfl, (hgs k hk).symm⟩
  · intro c hc
    exact absurd hc (Finset.not_mem_empty c)
  · intro c hc
    exact absurd hc (Finset.not_mem_empty c)
  · intro nid mid hm
    simp [alookup] at hm
  · intro k hk hne
    exact absurd (hgs k hk) hne

/-- Model of `find_path` with an absent start or goal id returns the empty path at
every fuel, in particular without running the loop at all. -/
theorem findPath_absent (g : BuildingGraph) (start_id end_id : String)
    (cong : String × String → Option ℝ) (fuel : ℕ)
    (h : alookup g.nodes start_id = none ∨ alookup g.nodes end_id = none) :
    findPath g start_id end_id cong fuel = .path [] := by
  unfold findPath
  rcases h with h | h
  · rw [h]
  · cases hs : alookup g.nodes start_id with
    | none => rfl
    | some sNode => rw [h]

theorem findPath_eq_loop (g : BuildingGraph) (start_id end_id : String)
    (cong : String × String → Option ℝ) (fuel : ℕ) (sNode eNode : Node)
    (hs : alookup g.nodes start_id = some sNode)
    (he : alookup g.nodes end_id = some eNode) :
    findPath g start_id end_id cong fuel =
      astarLoop g end_id cong fuel
        (AStarState.mk [(0, start_id)] ∅ [(start_id, 0)]
          [(start_id, heuristicOf sNode eNode)] []) := by
  unfold findPath
  rw [hs, he]

/-! ## C3: the empty path exactly characterizes search failure -/

/-- C3 (confirmed).  Whenever `find_path` returns a path, that path is empty
exactly when the search failed: the start or goal id is absent from the graph
(in which case `[]` is returned at fuel `0`, before any search), or the goal
is unreachable from the start along neighbor links — in particular when they
lie in different connected components; in every other case the returned path
is non-empty. -/
theorem C3_empty_path_iff (g : BuildingGraph) (start_id end_id : String)
    (cong : String × String → Option ℝ) (fuel : ℕ) (p : List String)
    (h : findPath g start_id end_id cong fuel = .path p) :
    p = [] ↔ alookup g.nodes start_id = none ∨ alookup g.nodes end_id = none ∨
      ¬ reachableIn g start_id end_id := by
  cases hs : alookup g.nodes start_id with
  | none =>
    rw [findPath_absent g start_id end_id cong fuel (Or.inl hs)] at h
    injection h with h
    subst h
    simp
  | some sNode =>
    cases he : alookup g.nodes end_id with
    | none =>
      rw [findPath_absent g start_id end_id cong fuel (Or.inr he)] at h
      injection h with h
      subst h
      simp
    | some eNode =>
      rw [findPath_eq_loop g start_id end_id cong fuel sNode eNode hs he] at h
      have hprop := astarLoop_empty_iff g start_id end_id cong fuel _
        (AStarInv_init g start_id end_id cong sNode eNode hs he) p h
      constructor
      · intro hp
        exact Or.inr (Or.inr (hprop.1 hp))
      · intro hrhs
        rcases hrhs with h1 | h1 | h1
        · simp at h1
        · simp at h1
        · by_contra hpne
          exact h1 (hprop.2 hpne)

/-- Witness for C3: an absent goal id gives the empty path at fuel `0`
(without search), and the failure disjunction holds. -/
theorem C3_empty_path_iff_witness :
    (([] : List String) = [] ↔
      alookup (BuildingGraph.empty.add_node "a" 0 0 0).1.nodes "a" = none ∨
      alookup (BuildingGraph.empty.add_node "a" 0 0 0).1.nodes "b" = none ∨
      ¬ reachableIn (BuildingGraph.empty.add_node "a" 0 0 0).1 "a" "b") :=
  C3_empty_path_iff (BuildingGraph.empty.add_node "a" 0 0 0).1 "a" "b"
    (fun _ => none) 0 []
    (findPath_absent (BuildingGraph.empty.add_node "a" 0 0 0).1 "a" "b"
      (fun _ => none) 0
      (Or.inr (by simp [BuildingGraph.empty, BuildingGraph.add_node])))

/-! ## C10: termination and shape of returned paths -/

/-- C10 (confirmed).  For every graph with strictly positive edge distances
whose neighbor entries reference existing nodes (the documented graph
invariant), and every congestion snapshot with non-negative rates,
`find_path` terminates: enough loop fuel always exists, path reconstruction
never follows predecessor links forever, and no lookup raises.  Moreover
every non-empty path it returns starts at the start id, ends at the goal id,
and repeats no node. -/
theorem C10_termination_and_path_shape (g : BuildingGraph)
    (start_id end_id : String) (cong : String × String → Option ℝ)
    (hpos : PositiveDistances g) (hcong : NonnegSnapshot cong)
    (hclosed : NeighborClosed g) :
    (∃ N, ∀ fuel, N ≤ fuel → findPath g start_id end_id cong fuel ≠ .fuelOut) ∧
    (∀ fuel, findPath g start_id end_id cong fuel ≠ .reconLoop) ∧
    (∀ fuel, findPath g start_id end_id cong fuel ≠ .keyError) ∧
    (∀ fuel p, findPath g start_id end_id cong fuel = .path p → p ≠ [] →
      p.head? = some start_id ∧ p.getLast? = some end_id ∧ p.Nodup) := by
  cases hs : alookup g.nodes start_id with
  | none =>
    have habs : ∀ fuel, findPath g start_id end_id cong fuel = .path [] :=
      fun fuel => findPath_absent g start_id end_id cong fuel (Or.inl hs)
    refine ⟨⟨0, fun fuel _ => by rw [habs fuel]; simp⟩,
      fun fuel => by rw [habs fuel]; simp,
      fun fuel => by rw [habs fuel]; simp,
      fun fuel p hp hpne => ?_⟩
    rw [habs fuel] at hp
    injection hp with hp
    exact absurd hp.symm hpne
  | some sNode =>
    cases he : alookup g.nodes end_id with
    | none =>
      have habs : ∀ fuel, findPath g start_id end_id cong fuel = .path [] :=
        fun fuel => findPath_absent g start_id end_id cong fuel (Or.inr he)
      refine ⟨⟨0, fun fuel _ => by rw [habs fuel]; simp⟩,
        fun fuel => by rw [habs fuel]; simp,
        fun fuel => by rw [habs fuel]; simp,
        fun fuel p hp hpne => ?_⟩
      rw [habs fuel] at hp
      injection hp with hp
      exact absurd hp.symm hpne
    | some eNode =>
      have hinit := AStarInv_init g start_id end_id cong sNode eNode hs he
      have hfp : ∀ fuel, findPath g start_id end_id cong fuel =
          astarLoop g end_id cong fuel
            (AStarState.mk [(0, start_id)] ∅ [(start_id, 0)]
              [(start_id, heuristicOf sNode eNode)] []) :=
        fun fuel => findPath_eq_loop g start_id end_id cong fuel sNode eNode hs he
      have hcd0 : CameDecreasing (AStarState.mk [(0, start_id)] ∅ [(start_id, 0)]
          [(start_id, heuristicOf sNode eNode)] []) := by
        intro nid mid hm
        simp [alookup] at hm
      refine ⟨⟨loopMeasure g (AStarState.mk [(0, start_id)] ∅ [(start_id, 0)]
          [(start_id, heuristicOf sNode eNode)] []) + 1, fun fuel hfuel => ?_⟩,
        fun fuel => ?_, fun fuel => ?_, fun fuel p hp hpne => ?_⟩
      · rw [hfp fuel]
        exact astarLoop_no_fuelOut g start_id end_id cong fuel _ hinit (by omega)
      · rw [hfp fuel]
        exact (astarLoop_path_props g start_id end_id cong hpos hcong fuel _
          hinit hcd0).1
      · rw [hfp fuel]
        exact astarLoop_no_keyError g start_id end_id cong hclosed
          (by simp [he]) fuel _ hinit
      · rw [hfp fuel] at hp
        exact (astarLoop_path_props g start_id end_id cong hpos hcong fuel _
          hinit hcd0).2 p hp hpne

/-- Witness for C10 on a concrete one-node graph with an empty snapshot. -/
theorem C10_termination_and_path_shape_witness :
    (∃ N, ∀ fuel, N ≤ fuel →
      findPath (BuildingGraph.empty.add_node "a" 0 0 0).1 "a" "a"
        (fun _ => none) fuel ≠ .fuelOut) ∧
    (∀ fuel, findPath (BuildingGraph.empty.add_node "a" 0 0 0).1 "a" "a"
      (fun _ => none) fuel ≠ .reconLoop) ∧
    (∀ fuel, findPath (BuildingGraph.empty.add_node "a" 0 0 0).1 "a" "a"
      (fun _ => none) fuel ≠ .keyError) ∧
    (∀ fuel p, findPath (BuildingGraph.empty.add_node "a" 0 0 0).1 "a" "a"
        (fun _ => none) fuel = .path p → p ≠ [] →
      p.head? = some "a" ∧ p.getLast? = some "a" ∧ p.Nodup) :=
  C10_termination_and_path_shape (BuildingGraph.empty.add_node "a" 0 0 0).1
    "a" "a" (fun _ => none)
    (by
      intro k n h pr hpr
      simp only [BuildingGraph.empty, BuildingGraph.add_node, ainsert_nil] at h
      by_cases hk : k = "a"
      · rw [alookup_cons, if_pos hk] at h
        injection h with h
        rw [← h] at hpr
        simp at hpr
      · rw [alookup_cons, if_neg hk] at h
        simp at h)
    (by
      intro a b r h
      simp at h)
    (by
      intro k n h pr hpr
      simp only [BuildingGraph.empty, BuildingGraph.add_node, ainsert_nil] at h
      by_cases hk : k = "a"
      · rw [alookup_cons, if_pos hk] at h
        injection h with h
        rw [← h] at hpr
        simp at hpr
      · rw [alookup_cons, if_neg hk] at h
        simp at h)
